import Mathlib

/-
Shallow embedding of the ATMOS analytics aggregation and chart-projection
engine (the `AnalyticalWorkspace` dashboard component) together with the
query orchestrator's request-token discipline.

Modelling conventions:
* JavaScript IEEE-754 doubles are modelled as exact rationals (`ℚ`); the
  properties under verification concern the algebraic structure of the
  aggregations, not float rounding.
* A JavaScript `Map` is an insertion-ordered association list: `get` finds
  the first (unique) matching key; `set` replaces in place when the key is
  present and appends otherwise, exactly as the JS iteration order behaves.
* `observed_at` strings are guaranteed parseable upstream; a parsed value is
  represented by its UTC calendar fields, i.e. the numbers the source reads
  back through `getUTCFullYear`/`getUTCMonth`/`getUTCDate`/`getUTCHours`.
-/

namespace Atmos

/-- UTC calendar fields of a parsed `observed_at` timestamp, as the source
obtains them from `new Date(observedAt)` followed by the `getUTC*` accessors
(`month` and `day` already shifted to the human convention, mirroring the
`getUTCMonth() + 1` in the source). -/
structure Timestamp where
  year : Nat
  month : Nat
  day : Nat
  hour : Nat
  minute : Nat
deriving DecidableEq

/-- One measurement row (`AnalyticsDataRow`). Only the fields the
aggregation engine reads are kept: `station_name`, `variable_name`, `unit`
and the `source_*` fields are carried around but never consumed by the
functions under verification. -/
structure AnalyticsDataRow where
  observed_at : Timestamp
  station_code : String
  variable_code : String
  value : ℚ
deriving DecidableEq

/-- Time granularity for temporal bucketing (`type TimeGranularity`). -/
inductive TimeGranularity where
  | hour
  | day
  | month
  | year
deriving DecidableEq

/-- JavaScript `String(n).padStart(2, '0')` for a natural number. -/
def pad2 (n : Nat) : String :=
  let s := toString n
  if s.length < 2 then "0" ++ s else s

/-- Source `getBucketKey`: truncate a timestamp to the granularity and render
the bucket key string. -/
def getBucketKey (ts : Timestamp) (granularity : TimeGranularity) : String :=
  let year := toString ts.year
  let month := pad2 ts.month
  let day := pad2 ts.day
  let hour := pad2 ts.hour
  match granularity with
  | .year => year
  | .month => year ++ "-" ++ month
  | .hour => year ++ "-" ++ month ++ "-" ++ day ++ " " ++ hour ++ ":00"
  | .day => year ++ "-" ++ month ++ "-" ++ day

/-- Insertion-ordered association list modelling a JavaScript `Map`. -/
abbrev JsMap (K V : Type) : Type := List (K × V)

/-- JavaScript `Map.get`. -/
def jget {K V : Type} [DecidableEq K] : JsMap K V → K → Option V
  | [], _ => none
  | (k', v) :: rest, k => if k' = k then some v else jget rest k

/-- JavaScript `Map.set`: replace in place if present, append otherwise. -/
def jset {K V : Type} [DecidableEq K] : JsMap K V → K → V → JsMap K V
  | [], k, v => [(k, v)]
  | (k', v') :: rest, k, v =>
      if k' = k then (k, v) :: rest else (k', v') :: jset rest k v

/-- Iteration order of the keys of a JavaScript `Map`. -/
def jkeys {K V : Type} (m : JsMap K V) : List K := m.map Prod.fst

@[simp]
theorem jkeys_nil {K V : Type} : jkeys ([] : JsMap K V) = [] := rfl

@[simp]
theorem jkeys_cons {K V : Type} (p : K × V) (m : JsMap K V) :
    jkeys (p :: m) = p.1 :: jkeys m := rfl

@[simp]
theorem jget_nil {K V : Type} [DecidableEq K] (k : K) :
    jget ([] : JsMap K V) k = none := rfl

@[simp]
theorem jget_jset_self {K V : Type} [DecidableEq K] (m : JsMap K V) (k : K) (v : V) :
    jget (jset m k v) k = some v := by
  induction m with
  | nil => simp [jget, jset]
  | cons p rest ih =>
      obtain ⟨k', v'⟩ := p
      by_cases h : k' = k
      · simp [jget, jset, h]
      · simp [jget, jset, h, ih]

theorem jget_jset_ne {K V : Type} [DecidableEq K] (m : JsMap K V) {k k' : K} (v : V)
    (h : k' ≠ k) : jget (jset m k v) k' = jget m k' := by
  have hne : ¬ k = k' := fun hh => h hh.symm
  induction m with
  | nil =>
      simp only [jset, jget, jget_nil]
      rw [if_neg hne]
  | cons p rest ih =>
      obtain ⟨k'', v''⟩ := p
      by_cases h2 : k'' = k
      · subst h2
        simp only [jset, if_pos rfl, jget]
        rw [if_neg hne, if_neg hne]
      · simp only [jset, if_neg h2, jget]
        by_cases h3 : k'' = k'
        · rw [if_pos h3, if_pos h3]
        · rw [if_neg h3, if_neg h3]
          exact ih

theorem jkeys_jset {K V : Type} [DecidableEq K] (m : JsMap K V) (k : K) (v : V) :
    jkeys (jset m k v) = if k ∈ jkeys m then jkeys m else jkeys m ++ [k] := by
  induction m with
  | nil => simp [jkeys, jset]
  | cons p rest ih =>
      obtain ⟨k', v'⟩ := p
      by_cases h : k' = k
      · subst h
        simp [jkeys, jset]
      · have e1 : jset ((k', v') :: rest) k v = (k', v') :: jset rest k v := by
          simp [jset, h]
        rw [e1, jkeys_cons, jkeys_cons, ih]
        by_cases hmem : k ∈ jkeys rest
        · have hcons : k ∈ k' :: jkeys rest := List.mem_cons_of_mem _ hmem
          rw [if_pos hmem, if_pos hcons]
        · have hcons : k ∉ k' :: jkeys rest := by
            intro hc
            rcases List.mem_cons.mp hc with hc | hc
            · exact h hc.symm
            · exact hmem hc
          rw [if_neg hmem, if_neg hcons]
          rfl

theorem jkeys_nodup_jset {K V : Type} [DecidableEq K] (m : JsMap K V) (k : K) (v : V)
    (h : (jkeys m).Nodup) : (jkeys (jset m k v)).Nodup := by
  rw [jkeys_jset]
  by_cases hmem : k ∈ jkeys m
  · rw [if_pos hmem]; exact h
  · rw [if_neg hmem, List.nodup_append]
    refine ⟨h, List.nodup_singleton k, ?_⟩
    intro a ha hb
    rw [List.mem_singleton] at hb
    exact hmem (hb ▸ ha)

theorem jget_eq_some_of_mem {K V : Type} [DecidableEq K] :
    ∀ {m : JsMap K V} {k : K} {v : V},
      (jkeys m).Nodup → (k, v) ∈ m → jget m k = some v := by
  intro m
  induction m with
  | nil => intro k v _ hmem; simp at hmem
  | cons p rest ih =>
      intro k v hnd hmem
      obtain ⟨k', v'⟩ := p
      rw [jkeys_cons, List.nodup_cons] at hnd
      rcases List.mem_cons.mp hmem with h | h
      · injection h with h1 h2
        subst h1
        subst h2
        simp [jget]
      · have hkmem : k ∈ jkeys rest := by
          simpa [jkeys] using List.mem_map_of_mem Prod.fst h
        have hne : ¬ k' = k := fun hh => hnd.1 (hh ▸ hkmem)
        simp [jget, hne, ih hnd.2 h]

theorem jget_isSome_iff_mem_jkeys {K V : Type} [DecidableEq K] (m : JsMap K V) (k : K) :
    (jget m k).isSome ↔ k ∈ jkeys m := by
  induction m with
  | nil => simp [jkeys]
  | cons p rest ih =>
      obtain ⟨k', v'⟩ := p
      rw [jkeys_cons]
      by_cases h : k' = k
      · simp [jget, h]
      · simp only [jget, if_neg h]
        rw [ih]
        constructor
        · exact fun hmem => List.mem_cons_of_mem _ hmem
        · intro hmem
          rcases List.mem_cons.mp hmem with hh | hh
          · exact absurd hh.symm h
          · exact hh

theorem jget_map {K V W : Type} [DecidableEq K] (f : V → W) (m : JsMap K V) (k : K) :
    jget (m.map (fun p => (p.1, f p.2))) k = (jget m k).map f := by
  induction m with
  | nil => simp
  | cons p rest ih =>
      obtain ⟨k', v'⟩ := p
      by_cases h : k' = k
      · simp [jget, h]
      · simp [jget, h, ih]

/-- Source `{ sum: number; count: number }` accumulator. -/
structure Acc where
  sum : ℚ
  count : Nat
deriving DecidableEq

/-- Reading an accumulator out of a map, defaulting to `{sum: 0, count: 0}`
(the `?? { sum: 0, count: 0 }` pattern in the source). -/
def accGet (o : Option Acc) : Acc := o.getD ⟨0, 0⟩

/-- One `item.sum += v; item.count += 1` update. -/
def accAdd (a : Acc) (v : ℚ) : Acc := ⟨a.sum + v, a.count + 1⟩

/-- Sum of a projected rational over a list. -/
def sumVal {α : Type} (val : α → ℚ) (l : List α) : ℚ := (l.map val).sum

/-- One step of the ubiquitous sum/count grouping loop
(`const b = m.get(key) ?? {sum:0,count:0}; b.sum += v; b.count += 1; m.set(key, b)`). -/
def groupStep {α K : Type} [DecidableEq K] (key : α → K) (val : α → ℚ)
    (m : JsMap K Acc) (r : α) : JsMap K Acc :=
  jset m (key r) (accAdd (accGet (jget m (key r))) (val r))

/-- Sum/count grouping of a whole batch by a key. -/
def groupBy {α K : Type} [DecidableEq K] (key : α → K) (val : α → ℚ)
    (rows : List α) : JsMap K Acc :=
  rows.foldl (groupStep key val) []

theorem groupBy_foldl_lookup_nil {α K : Type} [DecidableEq K]
    (key : α → K) (val : α → ℚ) :
    ∀ (rows : List α) (m : JsMap K Acc) (k : K),
      rows.filter (fun r => key r = k) = [] →
      jget (rows.foldl (groupStep key val) m) k = jget m k := by
  intro rows
  induction rows with
  | nil => intro m k _; rfl
  | cons r rest ih =>
      intro m k hfil
      rw [List.filter_cons] at hfil
      by_cases hk : key r = k
      · simp [hk] at hfil
      · have hfil' : rest.filter (fun r => key r = k) = [] := by
          simpa [hk] using hfil
        rw [List.foldl_cons, ih _ _ hfil']
        simp only [groupStep]
        exact jget_jset_ne m _ (fun h => hk h.symm)

theorem groupBy_foldl_lookup_ne_nil {α K : Type} [DecidableEq K]
    (key : α → K) (val : α → ℚ) :
    ∀ (rows : List α) (m : JsMap K Acc) (k : K),
      rows.filter (fun r => key r = k) ≠ [] →
      jget (rows.foldl (groupStep key val) m) k =
        some ⟨(accGet (jget m k)).sum + sumVal val (rows.filter (fun r => key r = k)),
              (accGet (jget m k)).count + (rows.filter (fun r => key r = k)).length⟩ := by
  intro rows
  induction rows with
  | nil => intro m k hfil; simp at hfil
  | cons r rest ih =>
      intro m k hfil
      by_cases hk : key r = k
      · have hstep : jget (groupStep key val m r) k =
            some (accAdd (accGet (jget m k)) (val r)) := by
          simp [groupStep, hk]
        by_cases hrest : rest.filter (fun r => key r = k) = []
        · have hfc : (r :: rest).filter (fun r => key r = k) = [r] := by
            simp [List.filter_cons, hk, hrest]
          rw [List.foldl_cons, groupBy_foldl_lookup_nil key val rest _ _ hrest, hstep, hfc]
          simp [accAdd, accGet, sumVal]
        · have hfc : (r :: rest).filter (fun r => key r = k) =
              r :: rest.filter (fun r => key r = k) := by
            simp [List.filter_cons, hk]
          rw [List.foldl_cons, ih _ _ hrest, hstep, hfc]
          refine congrArg some ?_
          simp only [accGet, Option.getD_some, accAdd, sumVal, List.map_cons,
            List.sum_cons, List.length_cons]
          refine congrArg₂ Acc.mk ?_ ?_
          · ring
          · omega
      · have hstep : jget (groupStep key val m r) k = jget m k := by
          simp only [groupStep]
          exact jget_jset_ne m _ (fun h => hk h.symm)
        have hfil' : rest.filter (fun r => key r = k) ≠ [] := by
          simpa [List.filter_cons, hk] using hfil
        rw [List.foldl_cons, ih _ _ hfil', hstep]
        simp [List.filter_cons, hk]

theorem groupBy_lookup_nil {α K : Type} [DecidableEq K] (key : α → K) (val : α → ℚ)
    (rows : List α) (k : K) (h : rows.filter (fun r => key r = k) = []) :
    jget (groupBy key val rows) k = none :=
  groupBy_foldl_lookup_nil key val rows [] k h

theorem groupBy_lookup_ne_nil {α K : Type} [DecidableEq K] (key : α → K) (val : α → ℚ)
    (rows : List α) (k : K) (h : rows.filter (fun r => key r = k) ≠ []) :
    jget (groupBy key val rows) k =
      some ⟨sumVal val (rows.filter (fun r => key r = k)),
            (rows.filter (fun r => key r = k)).length⟩ := by
  have := groupBy_foldl_lookup_ne_nil key val rows [] k h
  simpa [accGet] using this

/-- JavaScript `Set.add`: insertion-ordered set as a duplicate-free list. -/
def jsSetAdd {K : Type} [DecidableEq K] (s : List K) (k : K) : List K :=
  if k ∈ s then s else s ++ [k]

/-- First-occurrence (insertion) order of the distinct elements of a list,
which is the iteration order of a JavaScript `Set` populated in a loop. -/
def firstSeen {K : Type} [DecidableEq K] : List K → List K
  | [] => []
  | k :: l => k :: (firstSeen l).filter (fun x => x ≠ k)

/-- JavaScript `arr.slice(-n)`: the last `n` elements (all of them when the
list is shorter). -/
def sliceLast {α : Type} (n : Nat) (l : List α) : List α := l.drop (l.length - n)

/-- Source `round(value, digits = 2)`: `Math.round(value * factor) / factor`
(`Math.round` rounds halves toward positive infinity, as `round` on `ℚ`). -/
def roundJs (q : ℚ) (digits : Nat := 2) : ℚ :=
  (round (q * 10 ^ digits) : ℚ) / 10 ^ digits

/-- The series key of a row: station when splitting by station, variable
otherwise (`splitByStation ? row.station_code : row.variable_code`). -/
def seriesKeyOf (splitByStation : Bool) (r : AnalyticsDataRow) : String :=
  if splitByStation then r.station_code else r.variable_code

/-- One loop iteration of `computeTemporalSeries` over `bucketMap`: the row is
accumulated into its series-key accumulator and then into the reserved
`overall` accumulator of its bucket.  Note the source re-reads
`seriesBuckets.get('overall')` after the first `set`, so a series key that is
literally the string `"overall"` hits the same accumulator twice. -/
def tempStep (granularity : TimeGranularity) (splitByStation : Bool)
    (m : JsMap String (JsMap String Acc)) (r : AnalyticsDataRow) :
    JsMap String (JsMap String Acc) :=
  let bucket := getBucketKey r.observed_at granularity
  let seriesKey := seriesKeyOf splitByStation r
  let seriesBuckets := (jget m bucket).getD []
  let item := accGet (jget seriesBuckets seriesKey)
  let afterSeries := jset seriesBuckets seriesKey (accAdd item r.value)
  let overall := accGet (jget afterSeries "overall")
  let afterOverall := jset afterSeries "overall" (accAdd overall r.value)
  jset m bucket afterOverall

/-- One output point of the Temporal Aggregator.  The TypeScript record is
`{ bucket: string; overall: number; [key: string]: ... }`; the dynamic
number-valued properties written through `point[key] = ...` (which include
`overall` itself) are held in `entries`. -/
structure TemporalPoint where
  bucket : String
  entries : JsMap String ℚ
deriving DecidableEq

/-- The `overall` property of a point (`Number(point.overall ?? 0)`). -/
def TemporalPoint.overall (p : TemporalPoint) : ℚ :=
  (jget p.entries "overall").getD 0

/-- The `{ points, keys }` result of `computeTemporalSeries`. -/
structure TemporalSeriesResult where
  points : List TemporalPoint
  keys : List String
deriving DecidableEq

/-- One `seriesCounter.set(key, (seriesCounter.get(key) ?? 0) + 1)` update. -/
def countStep (m : JsMap String Nat) (k : String) : JsMap String Nat :=
  jset m k ((jget m k).getD 0 + 1)

/-- Source `computeTemporalSeries`.  Points are assembled from the bucket map
and sorted ascending by bucket key; the bucket-key strings are plain ASCII
digits, dashes, spaces and colons, on which `localeCompare` agrees with
code-unit (lexicographic) string order, modelled by `≤` on `String`.  The JS
`Array.prototype.sort` is stable, modelled by insertion sort. -/
def computeTemporalSeries (rows : List AnalyticsDataRow)
    (granularity : TimeGranularity) (splitByStation : Bool) : TemporalSeriesResult :=
  let bucketMap := rows.foldl (tempStep granularity splitByStation) []
  let seriesCounter := rows.foldl
    (fun m r => countStep m (seriesKeyOf splitByStation r)) []
  let points := List.insertionSort (fun a b : TemporalPoint => a.bucket ≤ b.bucket)
    (bucketMap.map (fun p =>
      TemporalPoint.mk p.1 (p.2.map (fun q => (q.1, q.2.sum / (q.2.count : ℚ))))))
  let keys := (List.insertionSort (fun a b : String × Nat => b.2 ≤ a.2) seriesCounter).map
    Prod.fst
  let effectiveKeys := if splitByStation then keys else keys.take 4
  ⟨points, effectiveKeys⟩

/-- One `{ station, avg }` bar of the Categorical Aggregator. -/
structure StationBarPoint where
  station : String
  avg : ℚ
deriving DecidableEq

/-- Source `computeStationBars` (uncapped variant): per-station averages
sorted descending by average; the JS comparator `(a, b) => b.avg - a.avg`
under a stable sort is insertion sort by `b.avg ≤ a.avg`. -/
def computeStationBars (rows : List AnalyticsDataRow) : List StationBarPoint :=
  let grouped := groupBy (fun r => r.station_code) (fun r => r.value) rows
  List.insertionSort (fun a b : StationBarPoint => b.avg ≤ a.avg)
    (grouped.map (fun p => StationBarPoint.mk p.1 (p.2.sum / (p.2.count : ℚ))))

/-- The near-duplicate dashboard variant of `computeStationBars` runs the
identical pipeline and appends `.slice(0, 14)`. -/
def computeStationBarsCapped (rows : List AnalyticsDataRow) : List StationBarPoint :=
  (computeStationBars rows).take 14

/-- One histogram bin.  The source renders the `range` label from the
2-digit-rounded endpoints; the rounded endpoints are kept as numbers here. -/
structure HistogramPoint where
  rangeStart : ℚ
  rangeEnd : ℚ
  count : Nat
deriving DecidableEq

/-- JavaScript `Math.min(...values)` over a non-empty list (the source only
calls it on non-empty input; the `[]` case is unreachable there). -/
def valuesMin : List ℚ → ℚ
  | [] => 0
  | v :: t => t.foldl min v

/-- JavaScript `Math.max(...values)` over a non-empty list. -/
def valuesMax : List ℚ → ℚ
  | [] => 0
  | v :: t => t.foldl max v

/-- Bin index of a value: `Math.min(bins - 1, Math.floor((value - min) / width))`.
Computed in `ℤ` and converted to a list index exactly when non-negative. -/
def histIndex (bins : Nat) (mn width v : ℚ) : Nat :=
  (min ((bins : ℤ) - 1) ⌊(v - mn) / width⌋).toNat

/-- One `buckets[index] += 1` update (in-bounds in every reachable call). -/
def bucketIncr (b : List Nat) (i : Nat) : List Nat := b.set i (b.getD i 0 + 1)

/-- Source `computeHistogram` (default bin count 16 in the canonical variant,
14 in the near-duplicate; the logic is identical). -/
def computeHistogram (rows : List AnalyticsDataRow) (bins : Nat := 16) :
    List HistogramPoint :=
  if rows.isEmpty then []
  else
    let values := rows.map (fun r => r.value)
    let mn := valuesMin values
    let mx := valuesMax values
    if |mx - mn| < 1 / 1000000000 then
      [⟨roundJs mn, roundJs mx, rows.length⟩]
    else
      let width := (mx - mn) / (bins : ℚ)
      let counts := values.foldl (fun b v => bucketIncr b (histIndex bins mn width v))
        (List.replicate bins 0)
      counts.enum.map (fun p =>
        let start := mn + width * (p.1 : ℚ)
        ⟨roundJs start, roundJs (start + width), p.2⟩)

/-- Day string used by the Heatmap Builder, identical to the `day`-granularity
bucket key template. -/
def formatDay (ts : Timestamp) : String :=
  toString ts.year ++ "-" ++ pad2 ts.month ++ "-" ++ pad2 ts.day

/-- The `(day, hour)` cell of a row.  The JS keys cells by the string
`` `${day}|${hour}` ``; day strings contain no `'|'`, so keying by the pair is
the same keying. -/
def dayHourKey (r : AnalyticsDataRow) : String × Nat :=
  (formatDay r.observed_at, r.observed_at.hour)

/-- The `{ days, hours, values }` heatmap matrix. -/
structure HeatMatrix where
  days : List String
  hours : List Nat
  values : JsMap (String × Nat) ℚ
deriving DecidableEq

/-- The ascending-sorted list of distinct day strings of the batch
(`Array.from(daySet.values()).sort()`): the `Set` accumulates first-occurrence
distinct days and the default string sort is code-unit ascending. -/
def sortedDistinctDays (rows : List AnalyticsDataRow) : List String :=
  List.insertionSort (fun a b : String => a ≤ b)
    (rows.foldl (fun s r => jsSetAdd s (formatDay r.observed_at)) [])

/-- Source `computeHeatmap`: group the whole batch per `(day, hour)`, retain
the last 14 of the ascending-sorted distinct days, then project cell means
only for retained days with data. -/
def computeHeatmap (rows : List AnalyticsDataRow) : HeatMatrix :=
  let grouped := groupBy dayHourKey (fun r => r.value) rows
  let days := sliceLast 14 (sortedDistinctDays rows)
  let hours := List.range 24
  let values := days.foldl (fun vm day =>
    hours.foldl (fun vm hour =>
      match jget grouped (day, hour) with
      | some item => jset vm (day, hour) (item.sum / (item.count : ℚ))
      | none => vm) vm) []
  ⟨days, hours, values⟩

/-- Three-way trend classification. -/
inductive Trend where
  | Rising
  | Falling
  | Stable
deriving DecidableEq

/-- The `{ samples, mean, min, max, trend }` summary record. -/
structure SummaryStats where
  samples : Nat
  mean : ℚ
  min : ℚ
  max : ℚ
  trend : Trend
deriving DecidableEq

/-- Source `buildSummary`: count/mean/min/max over the batch plus the trend
derived from the first and last overall bucket values of the temporal series. -/
def buildSummary (rows : List AnalyticsDataRow) (temporalSeries : List TemporalPoint) :
    SummaryStats :=
  if rows.isEmpty then ⟨0, 0, 0, 0, .Stable⟩
  else
    let values := rows.map (fun r => r.value)
    let mean := values.sum / (values.length : ℚ)
    let mn := valuesMin values
    let mx := valuesMax values
    let trend :=
      if 2 ≤ temporalSeries.length then
        let first := (temporalSeries.head?).elim 0 TemporalPoint.overall
        let last := (temporalSeries.getLast?).elim 0 TemporalPoint.overall
        let delta := last - first
        let threshold := max (0.05 : ℚ) (|mean| * 0.02)
        if delta > threshold then Trend.Rising
        else if delta < -threshold then Trend.Falling
        else Trend.Stable
      else Trend.Stable
    ⟨rows.length, mean, mn, mx, trend⟩

/-- Source `normalizeDateRange`: empty dates become `undefined` (`none`); an
inverted non-empty pair is swapped. -/
def normalizeDateRange (fromDate toDate : String) : Option String × Option String :=
  if fromDate = "" ∨ toDate = "" then
    (if fromDate = "" then none else some fromDate,
     if toDate = "" then none else some toDate)
  else if fromDate ≤ toDate then (some fromDate, some toDate)
  else (some toDate, some fromDate)

/-- The dispatched `AnalyticsQueryRequest` payload. -/
structure AnalyticsQueryRequest where
  source_file_ids : List Int
  station_codes : Option (List String)
  date_from : Option String
  date_to : Option String
  limit : Int
deriving DecidableEq

/-- Payload construction of `runAnalysis` (source lines building
`datasetMaxRows`, `effectiveLimit`, `normalizedRange` and `payload`), given
the selected source's `row_count` when the source is found
(`filters?.sources.find(...)?.row_count ?? requestedLimit`). -/
def buildQueryPayload (sourceId : Int) (stationCodes : List String)
    (fromDate toDate : String) (requestedLimit : Int)
    (sourceRowCount : Option Int) : AnalyticsQueryRequest :=
  let datasetMaxRows := max 100 (sourceRowCount.getD requestedLimit)
  let effectiveLimit := max 100 (min requestedLimit datasetMaxRows)
  let normalizedRange := normalizeDateRange fromDate toDate
  { source_file_ids := [sourceId]
    station_codes := if stationCodes.length > 0 then some stationCodes else none
    date_from := normalizedRange.1
    date_to := normalizedRange.2
    limit := effectiveLimit }

/-- Station live-snapshot response.  The per-station nested payload (names,
coordinates, latest variables) is never read by the orchestrator and is
abbreviated to the returned station codes. -/
structure StationLiveSnapshotResponse where
  stations : List String
  total : Int
  latest_observed_at : Option String
deriving DecidableEq

/-- The orchestrator's visible state: the `useState`/`useRef` cells touched by
`runAnalysis` (main query channel) and `refreshLiveSnapshot` (live channel). -/
structure OrchestratorState where
  requestId : Nat
  rows : List AnalyticsDataRow
  error : Option String
  loading : Bool
  liveRequestId : Nat
  liveSnapshot : Option StationLiveSnapshotResponse
  liveLoading : Bool
deriving DecidableEq

/-- Initial component state: both token counters 0, no rows, no error,
nothing loading, no snapshot. -/
def initialState : OrchestratorState :=
  ⟨0, [], none, false, 0, none, false⟩

/-- The message stored when an accepted response carries zero rows. -/
def noDataMessage : String := "No data for the selected source and filters."

/-- Issue on the main channel (`requestId = requestIdRef.current + 1;
requestIdRef.current = requestId; setLoading(true); setError(null)`).
Returns the token the in-flight request is tagged with. -/
def issueMainRequest (st : OrchestratorState) : Nat × OrchestratorState :=
  let requestId := st.requestId + 1
  (requestId, { st with requestId := requestId, loading := true, error := none })

/-- Arrival of a successful main response carrying `token`: applied only when
the token is still current, otherwise a silent no-op (early `return`). -/
def applyMainSuccess (st : OrchestratorState) (token : Nat)
    (respRows : List AnalyticsDataRow) : OrchestratorState :=
  if token = st.requestId then
    { st with rows := respRows,
              error := if respRows.isEmpty then some noDataMessage else st.error,
              loading := false }
  else st

/-- Arrival of a failed main response (the `catch` + `finally` path). -/
def applyMainFailure (st : OrchestratorState) (token : Nat) (message : String) :
    OrchestratorState :=
  if token = st.requestId then
    { st with rows := [], error := some message, loading := false }
  else st

/-- Issue on the live-snapshot channel (`liveRequestIdRef`). -/
def issueLiveRequest (st : OrchestratorState) : Nat × OrchestratorState :=
  let requestId := st.liveRequestId + 1
  (requestId, { st with liveRequestId := requestId, liveLoading := true })

/-- Arrival of a successful live-snapshot response. -/
def applyLiveSuccess (st : OrchestratorState) (token : Nat)
    (response : StationLiveSnapshotResponse) : OrchestratorState :=
  if token = st.liveRequestId then
    { st with liveSnapshot := some response, liveLoading := false }
  else st

/-- Arrival of a failed live-snapshot response (`catch` clears the snapshot). -/
def applyLiveFailure (st : OrchestratorState) (token : Nat) : OrchestratorState :=
  if token = st.liveRequestId then
    { st with liveSnapshot := none, liveLoading := false }
  else st

/-- Interleaving alphabet of the two channels. -/
inductive OrchestratorEvent where
  | mainIssue
  | mainSuccess (token : Nat) (respRows : List AnalyticsDataRow)
  | mainFailure (token : Nat) (message : String)
  | liveIssue
  | liveSuccess (token : Nat) (response : StationLiveSnapshotResponse)
  | liveFailure (token : Nat)
deriving DecidableEq

/-- Single interleaving step. -/
def stepEvent (st : OrchestratorState) : OrchestratorEvent → OrchestratorState
  | .mainIssue => (issueMainRequest st).2
  | .mainSuccess t r => applyMainSuccess st t r
  | .mainFailure t m => applyMainFailure st t m
  | .liveIssue => (issueLiveRequest st).2
  | .liveSuccess t s => applyLiveSuccess st t s
  | .liveFailure t => applyLiveFailure st t

/-- Run a whole event trace. -/
def runEvents (st : OrchestratorState) (es : List OrchestratorEvent) :
    OrchestratorState :=
  es.foldl stepEvent st

/-- The token allocated by an event: a main-channel issue allocates the next
counter value, every other event allocates none. -/
def issuedToken (st : OrchestratorState) : OrchestratorEvent → List Nat
  | .mainIssue => [(issueMainRequest st).1]
  | .mainSuccess _ _ => []
  | .mainFailure _ _ => []
  | .liveIssue => []
  | .liveSuccess _ _ => []
  | .liveFailure _ => []

/-- The main-channel tokens issued along a trace, in issue order. -/
def mainTokens : OrchestratorState → List OrchestratorEvent → List Nat
  | _, [] => []
  | st, e :: es => issuedToken st e ++ mainTokens (stepEvent st e) es

/-! Helper lemmas about `valuesMin`, `valuesMax` and sums. -/

theorem foldl_min_le_init (a : ℚ) (l : List ℚ) : l.foldl min a ≤ a := by
  induction l generalizing a with
  | nil => exact le_refl a
  | cons v t ih => exact le_trans (ih (min a v)) (min_le_left a v)

theorem foldl_min_le_mem (a : ℚ) (l : List ℚ) : ∀ x ∈ l, l.foldl min a ≤ x := by
  induction l generalizing a with
  | nil => intro x hx; simp at hx
  | cons v t ih =>
      intro x hx
      rcases List.mem_cons.mp hx with h | h
      · subst h
        exact le_trans (foldl_min_le_init (min a x) t) (min_le_right a x)
      · exact ih (min a v) x h

theorem foldl_min_mem (a : ℚ) (l : List ℚ) : l.foldl min a = a ∨ l.foldl min a ∈ l := by
  induction l generalizing a with
  | nil => exact Or.inl rfl
  | cons v t ih =>
      rcases ih (min a v) with h | h
      · rcases min_cases a v with ⟨he, _⟩ | ⟨he, _⟩
        · exact Or.inl (by rw [List.foldl_cons, h, he])
        · exact Or.inr (by rw [List.foldl_cons, h, he]; exact List.mem_cons_self v t)
      · exact Or.inr (List.mem_cons_of_mem v h)

theorem foldl_max_init_le (a : ℚ) (l : List ℚ) : a ≤ l.foldl max a := by
  induction l generalizing a with
  | nil => exact le_refl a
  | cons v t ih => exact le_trans (le_max_left a v) (ih (max a v))

theorem foldl_max_mem_le (a : ℚ) (l : List ℚ) : ∀ x ∈ l, x ≤ l.foldl max a := by
  induction l generalizing a with
  | nil => intro x hx; simp at hx
  | cons v t ih =>
      intro x hx
      rcases List.mem_cons.mp hx with h | h
      · subst h
        exact le_trans (le_max_right a x) (foldl_max_init_le (max a x) t)
      · exact ih (max a v) x h

theorem foldl_max_mem (a : ℚ) (l : List ℚ) : l.foldl max a = a ∨ l.foldl max a ∈ l := by
  induction l generalizing a with
  | nil => exact Or.inl rfl
  | cons v t ih =>
      rcases ih (max a v) with h | h
      · rcases max_cases a v with ⟨he, _⟩ | ⟨he, _⟩
        · exact Or.inl (by rw [List.foldl_cons, h, he])
        · exact Or.inr (by rw [List.foldl_cons, h, he]; exact List.mem_cons_self v t)
      · exact Or.inr (List.mem_cons_of_mem v h)

theorem valuesMin_le (l : List ℚ) : ∀ x ∈ l, valuesMin l ≤ x := by
  match l with
  | [] => intro x hx; simp at hx
  | v :: t =>
      intro x hx
      rcases List.mem_cons.mp hx with h | h
      · subst h; exact foldl_min_le_init x t
      · exact foldl_min_le_mem v t x h

theorem valuesMin_mem {l : List ℚ} (h : l ≠ []) : valuesMin l ∈ l := by
  match l with
  | [] => exact absurd rfl h
  | v :: t =>
      rcases foldl_min_mem v t with he | he
      · rw [valuesMin, he]; exact List.mem_cons_self v t
      · exact List.mem_cons_of_mem v (by rw [valuesMin]; exact he)

theorem le_valuesMax (l : List ℚ) : ∀ x ∈ l, x ≤ valuesMax l := by
  match l with
  | [] => intro x hx; simp at hx
  | v :: t =>
      intro x hx
      rcases List.mem_cons.mp hx with h | h
      · subst h; exact foldl_max_init_le x t
      · exact foldl_max_mem_le v t x h

theorem valuesMax_mem {l : List ℚ} (h : l ≠ []) : valuesMax l ∈ l := by
  match l with
  | [] => exact absurd rfl h
  | v :: t =>
      rcases foldl_max_mem v t with he | he
      · rw [valuesMax, he]; exact List.mem_cons_self v t
      · exact List.mem_cons_of_mem v (by rw [valuesMax]; exact he)

theorem length_mul_le_sum (l : List ℚ) (b : ℚ) (h : ∀ x ∈ l, b ≤ x) :
    (l.length : ℚ) * b ≤ l.sum := by
  induction l with
  | nil => simp
  | cons v t ih =>
      have hv : b ≤ v := h v (List.mem_cons_self v t)
      have ht : (t.length : ℚ) * b ≤ t.sum :=
        ih (fun x hx => h x (List.mem_cons_of_mem v hx))
      have : ((t.length : ℚ) + 1) * b = (t.length : ℚ) * b + b := by ring
      calc ((v :: t).length : ℚ) * b = (t.length : ℚ) * b + b := by
            push_cast [List.length_cons]; ring
        _ ≤ t.sum + v := add_le_add ht hv
        _ = (v :: t).sum := by rw [List.sum_cons]; ring

theorem sum_le_length_mul (l : List ℚ) (b : ℚ) (h : ∀ x ∈ l, x ≤ b) :
    l.sum ≤ (l.length : ℚ) * b := by
  induction l with
  | nil => simp
  | cons v t ih =>
      have hv : v ≤ b := h v (List.mem_cons_self v t)
      have ht : t.sum ≤ (t.length : ℚ) * b :=
        ih (fun x hx => h x (List.mem_cons_of_mem v hx))
      calc (v :: t).sum = t.sum + v := by rw [List.sum_cons]; ring
        _ ≤ (t.length : ℚ) * b + b := add_le_add ht hv
        _ = ((v :: t).length : ℚ) * b := by push_cast [List.length_cons]; ring

/-! Helper lemmas about `firstSeen`, `jsSetAdd` and first-occurrence indices. -/

theorem mem_firstSeen {K : Type} [DecidableEq K] (l : List K) (x : K) :
    x ∈ firstSeen l ↔ x ∈ l := by
  induction l with
  | nil => simp [firstSeen]
  | cons k t ih =>
      by_cases hx : x = k
      · subst hx
        simp [firstSeen]
      · simp only [firstSeen, List.mem_cons, List.mem_filter]
        constructor
        · intro h
          rcases h with h | h
          · exact Or.inl h
          · exact Or.inr (ih.mp h.1)
        · intro h
          rcases h with h | h
          · exact Or.inl h
          · exact Or.inr ⟨ih.mpr h, by simpa using hx⟩

theorem firstSeen_nodup {K : Type} [DecidableEq K] (l : List K) : (firstSeen l).Nodup := by
  induction l with
  | nil => simp [firstSeen]
  | cons k t ih =>
      rw [firstSeen, List.nodup_cons]
      constructor
      · intro hmem
        have := (List.mem_filter.mp hmem).2
        simp at this
      · exact ih.filter _

theorem filter_notMem_filter_ne {K : Type} [DecidableEq K] (X acc : List K) (k : K)
    (hk : k ∈ acc) :
    (X.filter (fun x => x ≠ k)).filter (fun x => x ∉ acc) =
      X.filter (fun x => x ∉ acc) := by
  rw [List.filter_filter]
  apply List.filter_congr
  intro x hx
  by_cases hxk : x = k
  · subst hxk
    simp [hk]
  · simp [hxk]

theorem filter_notMem_append_singleton {K : Type} [DecidableEq K] (X acc : List K) (k : K) :
    X.filter (fun x => x ∉ acc ++ [k]) =
      (X.filter (fun x => x ≠ k)).filter (fun x => x ∉ acc) := by
  rw [List.filter_filter]
  apply List.filter_congr
  intro x hx
  by_cases hxk : x = k
  · subst hxk
    simp
  · by_cases hxa : x ∈ acc
    · simp [List.mem_append, hxk, hxa]
    · simp [List.mem_append, hxk, hxa]

theorem foldl_jsSetAdd_eq {K : Type} [DecidableEq K] (l : List K) :
    ∀ acc : List K,
      l.foldl jsSetAdd acc = acc ++ (firstSeen l).filter (fun k => k ∉ acc) := by
  induction l with
  | nil => intro acc; simp [firstSeen]
  | cons k t ih =>
      intro acc
      rw [List.foldl_cons, ih (jsSetAdd acc k), firstSeen]
      by_cases hk : k ∈ acc
      · have hadd : jsSetAdd acc k = acc := by simp [jsSetAdd, hk]
        rw [hadd, List.filter_cons, if_neg (by simp [hk]),
          filter_notMem_filter_ne (firstSeen t) acc k hk]
      · have hadd : jsSetAdd acc k = acc ++ [k] := by simp [jsSetAdd, hk]
        rw [hadd, List.filter_cons, if_pos (by simp [hk]),
          filter_notMem_append_singleton (firstSeen t) acc k, List.append_assoc,
          List.singleton_append]

/-- First index at which an element occurs in a list (`length` when absent):
the position at which a station or day is first encountered in the batch. -/
def firstIdx {K : Type} [DecidableEq K] (l : List K) (x : K) : Nat :=
  (l.takeWhile (fun y => y ≠ x)).length

theorem firstIdx_cons_self {K : Type} [DecidableEq K] (l : List K) (x : K) :
    firstIdx (x :: l) x = 0 := by
  simp [firstIdx, List.takeWhile_cons]

theorem firstIdx_cons_ne {K : Type} [DecidableEq K] (l : List K) {x k : K} (h : x ≠ k) :
    firstIdx (k :: l) x = firstIdx l x + 1 := by
  simp [firstIdx, List.takeWhile_cons, Ne.symm h]

theorem firstSeen_pairwise_firstIdx {K : Type} [DecidableEq K] (l : List K) :
    (firstSeen l).Pairwise (fun a b => firstIdx l a < firstIdx l b) := by
  induction l with
  | nil => simp [firstSeen]
  | cons k t ih =>
      rw [firstSeen, List.pairwise_cons]
      constructor
      · intro b hb
        have hbk : b ≠ k := by simpa using (List.mem_filter.mp hb).2
        rw [firstIdx_cons_self, firstIdx_cons_ne t hbk]
        exact Nat.succ_pos _
      · have hfil : ((firstSeen t).filter (fun x => x ≠ k)).Pairwise
            (fun a b => firstIdx t a < firstIdx t b) := ih.filter _
        refine hfil.imp_of_mem ?_
        intro a b ha hb hab
        have hak : a ≠ k := by simpa using (List.mem_filter.mp ha).2
        have hbk : b ≠ k := by simpa using (List.mem_filter.mp hb).2
        rw [firstIdx_cons_ne t hak, firstIdx_cons_ne t hbk]
        omega

/-! Key-order lemmas: grouping maps list their keys in first-encounter order. -/

theorem jkeys_groupStep {α K : Type} [DecidableEq K] (key : α → K) (val : α → ℚ)
    (m : JsMap K Acc) (r : α) :
    jkeys (groupStep key val m r) = jsSetAdd (jkeys m) (key r) := by
  rw [groupStep, jkeys_jset, jsSetAdd]

theorem jkeys_foldl_groupStep {α K : Type} [DecidableEq K] (key : α → K) (val : α → ℚ) :
    ∀ (rows : List α) (m : JsMap K Acc),
      jkeys (rows.foldl (groupStep key val) m) = (rows.map key).foldl jsSetAdd (jkeys m) := by
  intro rows
  induction rows with
  | nil => intro m; rfl
  | cons r rest ih =>
      intro m
      rw [List.foldl_cons, ih, List.map_cons, List.foldl_cons, jkeys_groupStep]

theorem jkeys_groupBy {α K : Type} [DecidableEq K] (key : α → K) (val : α → ℚ)
    (rows : List α) :
    jkeys (groupBy key val rows) = firstSeen (rows.map key) := by
  rw [groupBy, jkeys_foldl_groupStep, jkeys_nil, foldl_jsSetAdd_eq]
  simp

theorem jkeys_groupBy_nodup {α K : Type} [DecidableEq K] (key : α → K) (val : α → ℚ)
    (rows : List α) : (jkeys (groupBy key val rows)).Nodup := by
  rw [jkeys_groupBy]
  exact firstSeen_nodup _

/-! Stability of the descending sort used by the Categorical Aggregator. -/

theorem orderedInsert_desc_pairwise (fi : StationBarPoint → Nat) (a : StationBarPoint) :
    ∀ l : List StationBarPoint,
      l.Pairwise (fun x y => y.avg ≤ x.avg ∧ (x.avg = y.avg → fi x < fi y)) →
      (∀ x ∈ l, a.avg = x.avg → fi a < fi x) →
      (List.orderedInsert (fun x y => y.avg ≤ x.avg) a l).Pairwise
        (fun x y => y.avg ≤ x.avg ∧ (x.avg = y.avg → fi x < fi y)) := by
  intro l
  induction l with
  | nil =>
      intro _ _
      simp [List.orderedInsert]
  | cons b l ih =>
      intro hl ha
      have hl' := List.pairwise_cons.mp hl
      by_cases hab : b.avg ≤ a.avg
      · rw [List.orderedInsert, if_pos hab]
        refine List.pairwise_cons.mpr ⟨?_, hl⟩
        intro y hy
        rcases List.mem_cons.mp hy with rfl | hy
        · exact ⟨hab, fun he => ha y (List.mem_cons_self _ _) he⟩
        · exact ⟨le_trans (hl'.1 y hy).1 hab,
            fun he => ha y (List.mem_cons_of_mem _ hy) he⟩
      · rw [List.orderedInsert, if_neg hab]
        have hba : a.avg < b.avg := not_le.mp hab
        refine List.pairwise_cons.mpr
          ⟨?_, ih hl'.2 (fun x hx => ha x (List.mem_cons_of_mem _ hx))⟩
        intro y hy
        rcases (List.mem_orderedInsert _).mp hy with rfl | hy
        · exact ⟨le_of_lt hba, fun he => absurd hba (by rw [he]; exact lt_irrefl _)⟩
        · exact hl'.1 y hy

theorem insertionSort_desc_pairwise (fi : StationBarPoint → Nat) :
    ∀ l : List StationBarPoint,
      l.Pairwise (fun x y => fi x < fi y) →
      (List.insertionSort (fun x y => y.avg ≤ x.avg) l).Pairwise
        (fun x y => y.avg ≤ x.avg ∧ (x.avg = y.avg → fi x < fi y)) := by
  intro l
  induction l with
  | nil =>
      intro _
      simp
  | cons a l ih =>
      intro h
      have h1 := List.pairwise_cons.mp h
      rw [List.insertionSort]
      refine orderedInsert_desc_pairwise fi a _ (ih h1.2) ?_
      intro x hx _
      have hxl : x ∈ l := ((List.perm_insertionSort _ l).mem_iff).mp hx
      exact h1.1 x hxl

/-- Claim C6: the Categorical Aggregator yields exactly one `{station, average}`
pair per distinct station, with the station's arithmetic mean, sorted
non-increasing by average with ties in first-encountered order, and the capped
variant is the first 14 pairs of that same order. -/
theorem computeStationBars_spec (rows : List AnalyticsDataRow) :
    ((computeStationBars rows).map (fun p => p.station)).Nodup ∧
    (∀ s, s ∈ (computeStationBars rows).map (fun p => p.station) ↔
       s ∈ rows.map (fun r => r.station_code)) ∧
    (∀ p ∈ computeStationBars rows,
       rows.filter (fun r => r.station_code = p.station) ≠ [] ∧
       p.avg = sumVal (fun r => r.value) (rows.filter (fun r => r.station_code = p.station)) /
         ((rows.filter (fun r => r.station_code = p.station)).length : ℚ)) ∧
    (computeStationBars rows).Pairwise (fun a b => b.avg ≤ a.avg ∧
       (a.avg = b.avg → firstIdx (rows.map (fun r => r.station_code)) a.station <
         firstIdx (rows.map (fun r => r.station_code)) b.station)) ∧
    computeStationBarsCapped rows = (computeStationBars rows).take 14 := by
  have hperm : List.Perm (computeStationBars rows)
      ((groupBy (fun r => r.station_code) (fun r => r.value) rows).map
        (fun p => StationBarPoint.mk p.1 (p.2.sum / (p.2.count : ℚ)))) :=
    List.perm_insertionSort _ _
  have hmapst : ((groupBy (fun r => r.station_code) (fun r => r.value) rows).map
      (fun p => StationBarPoint.mk p.1 (p.2.sum / (p.2.count : ℚ)))).map (fun p => p.station) =
      firstSeen (rows.map (fun r => r.station_code)) := by
    rw [List.map_map, ← jkeys_groupBy (fun r => r.station_code) (fun r => r.value) rows]
    rfl
  have hpermst : List.Perm ((computeStationBars rows).map (fun p => p.station))
      (firstSeen (rows.map (fun r => r.station_code))) := by
    rw [← hmapst]
    exact hperm.map _
  refine ⟨?_, ?_, ?_, ?_, rfl⟩
  · exact (hpermst.nodup_iff).mpr (firstSeen_nodup _)
  · intro s
    rw [hpermst.mem_iff, mem_firstSeen]
  · intro p hp
    have hpre : p ∈ (groupBy (fun r => r.station_code) (fun r => r.value) rows).map
        (fun p => StationBarPoint.mk p.1 (p.2.sum / (p.2.count : ℚ))) :=
      hperm.mem_iff.mp hp
    obtain ⟨q, hq, hpq⟩ := List.mem_map.mp hpre
    have hget : jget (groupBy (fun r => r.station_code) (fun r => r.value) rows) q.1 =
        some q.2 :=
      jget_eq_some_of_mem (jkeys_groupBy_nodup _ _ _) (by simpa using hq)
    by_cases hfil : rows.filter (fun r => r.station_code = q.1) = []
    · rw [groupBy_lookup_nil _ _ _ _ hfil] at hget
      exact absurd hget (by simp)
    · rw [groupBy_lookup_ne_nil _ _ _ _ hfil] at hget
      have hq2 : q.2 = ⟨sumVal (fun r => r.value) (rows.filter (fun r => r.station_code = q.1)),
          (rows.filter (fun r => r.station_code = q.1)).length⟩ := by
        injection hget with h
        exact h.symm
      have hst : p.station = q.1 := by rw [← hpq]
      rw [hst]
      refine ⟨hfil, ?_⟩
      rw [← hpq, hq2]
  · have h0 := firstSeen_pairwise_firstIdx (rows.map (fun r => r.station_code))
    rw [← jkeys_groupBy (fun r => r.station_code) (fun r => r.value) rows] at h0
    have h0' : List.Pairwise
        (fun a b => firstIdx (rows.map (fun r => r.station_code)) a <
          firstIdx (rows.map (fun r => r.station_code)) b)
        (List.map Prod.fst (groupBy (fun r => r.station_code) (fun r => r.value) rows)) := h0
    have h1 := (@List.pairwise_map _ _ Prod.fst
      (fun a b => firstIdx (rows.map (fun r => r.station_code)) a <
        firstIdx (rows.map (fun r => r.station_code)) b)
      (groupBy (fun r => r.station_code) (fun r => r.value) rows)).mp h0'
    exact insertionSort_desc_pairwise
      (fun p => firstIdx (rows.map (fun r => r.station_code)) p.station) _
      ((@List.pairwise_map _ _
        (fun p : String × Acc => StationBarPoint.mk p.1 (p.2.sum / (p.2.count : ℚ)))
        (fun x y => firstIdx (rows.map (fun r => r.station_code)) x.station <
          firstIdx (rows.map (fun r => r.station_code)) y.station)
        (groupBy (fun r => r.station_code) (fun r => r.value) rows)).mpr h1)

/-! Summary/Trend Calculator claims. -/

/-- Claim C10: on a non-empty batch the summary reports the batch size, the
arithmetic mean, and least/greatest values, with `min ≤ mean ≤ max`.  The
temporal series argument only influences the trend, so the claim holds for
every `pts`. -/
theorem buildSummary_bounds (rows : List AnalyticsDataRow) (pts : List TemporalPoint)
    (h : rows ≠ []) :
    (buildSummary rows pts).samples = rows.length ∧
    (buildSummary rows pts).mean =
      sumVal (fun r => r.value) rows / (rows.length : ℚ) ∧
    ((buildSummary rows pts).min ∈ rows.map (fun r => r.value) ∧
      ∀ v ∈ rows.map (fun r => r.value), (buildSummary rows pts).min ≤ v) ∧
    ((buildSummary rows pts).max ∈ rows.map (fun r => r.value) ∧
      ∀ v ∈ rows.map (fun r => r.value), v ≤ (buildSummary rows pts).max) ∧
    (buildSummary rows pts).min ≤ (buildSummary rows pts).mean ∧
    (buildSummary rows pts).mean ≤ (buildSummary rows pts).max := by
  have hne : rows.isEmpty = false := by
    cases rows with
    | nil => exact absurd rfl h
    | cons a l => rfl
  have hvne : rows.map (fun r => r.value) ≠ [] := by
    simpa using h
  have hlen : ((rows.map (fun r => r.value)).length : ℚ) = (rows.length : ℚ) := by
    rw [List.length_map]
  have hlpos : (0 : ℚ) < (rows.length : ℚ) := by
    have : 0 < rows.length := List.length_pos.mpr h
    exact_mod_cast this
  have hsimp : buildSummary rows pts =
      ⟨rows.length,
       (rows.map (fun r => r.value)).sum / ((rows.map (fun r => r.value)).length : ℚ),
       valuesMin (rows.map (fun r => r.value)),
       valuesMax (rows.map (fun r => r.value)),
       (buildSummary rows pts).trend⟩ := by
    rw [buildSummary, hne]
    rfl
  rw [hsimp]
  refine ⟨rfl, by rw [hlen]; rfl, ⟨valuesMin_mem hvne, valuesMin_le _⟩,
    ⟨valuesMax_mem hvne, le_valuesMax _⟩, ?_, ?_⟩
  · rw [hlen, le_div_iff₀ hlpos]
    have := length_mul_le_sum (rows.map (fun r => r.value)) _ (valuesMin_le _)
    rw [List.length_map] at this
    calc valuesMin (rows.map (fun r => r.value)) * (rows.length : ℚ)
        = (rows.length : ℚ) * valuesMin (rows.map (fun r => r.value)) := by ring
      _ ≤ (rows.map (fun r => r.value)).sum := this
  · rw [hlen, div_le_iff₀ hlpos]
    have := sum_le_length_mul (rows.map (fun r => r.value)) _ (le_valuesMax _)
    rw [List.length_map] at this
    calc (rows.map (fun r => r.value)).sum
        ≤ (rows.length : ℚ) * valuesMax (rows.map (fun r => r.value)) := this
      _ = valuesMax (rows.map (fun r => r.value)) * (rows.length : ℚ) := by ring

/-- Witness for C10 at a concrete two-row batch. -/
theorem buildSummary_bounds_witness :
    ([⟨⟨2024, 1, 1, 8, 0⟩, "S1", "PM25", 10⟩,
      ⟨⟨2024, 1, 1, 9, 0⟩, "S1", "PM25", 20⟩] : List AnalyticsDataRow) ≠ [] ∧
    (buildSummary
      [⟨⟨2024, 1, 1, 8, 0⟩, "S1", "PM25", 10⟩,
       ⟨⟨2024, 1, 1, 9, 0⟩, "S1", "PM25", 20⟩] []).samples = 2 :=
  ⟨by decide,
   (buildSummary_bounds
     [⟨⟨2024, 1, 1, 8, 0⟩, "S1", "PM25", 10⟩,
      ⟨⟨2024, 1, 1, 9, 0⟩, "S1", "PM25", 20⟩] [] (by decide)).1⟩

/-- Claim C4: the trend is `Rising` exactly when `delta > threshold`, `Falling`
exactly when `delta < -threshold` (strict inequalities, so a delta exactly at
the threshold is `Stable`); fewer than two buckets give `Stable`, and the
empty batch gives the all-zero `Stable` summary. -/
theorem buildSummary_trend_spec :
    (∀ pts, buildSummary [] pts = ⟨0, 0, 0, 0, Trend.Stable⟩) ∧
    (∀ rows pts, pts.length < 2 → (buildSummary rows pts).trend = Trend.Stable) ∧
    (∀ rows pts, rows ≠ [] → 2 ≤ pts.length →
      ((buildSummary rows pts).trend = Trend.Rising ↔
        (pts.getLast?).elim 0 TemporalPoint.overall -
            (pts.head?).elim 0 TemporalPoint.overall >
          max (0.05 : ℚ)
            (|sumVal (fun r => r.value) rows / (rows.length : ℚ)| * 0.02)) ∧
      ((buildSummary rows pts).trend = Trend.Falling ↔
        (pts.getLast?).elim 0 TemporalPoint.overall -
            (pts.head?).elim 0 TemporalPoint.overall <
          -max (0.05 : ℚ)
            (|sumVal (fun r => r.value) rows / (rows.length : ℚ)| * 0.02)) ∧
      ((pts.getLast?).elim 0 TemporalPoint.overall -
            (pts.head?).elim 0 TemporalPoint.overall =
          max (0.05 : ℚ)
            (|sumVal (fun r => r.value) rows / (rows.length : ℚ)| * 0.02) →
        (buildSummary rows pts).trend = Trend.Stable)) := by
  refine ⟨fun pts => rfl, ?_, ?_⟩
  · intro rows pts hlen
    cases hrows : rows.isEmpty with
    | true =>
        rw [buildSummary, hrows]
        rfl
    | false =>
        rw [buildSummary, hrows]
        have h2 : ¬ 2 ≤ pts.length := by omega
        simp only [h2, if_false, if_neg]
        rfl
  · intro rows pts hrows hlen
    have hne : rows.isEmpty = false := by
      cases rows with
      | nil => exact absurd rfl hrows
      | cons a l => rfl
    set delta := (pts.getLast?).elim 0 TemporalPoint.overall -
      (pts.head?).elim 0 TemporalPoint.overall with hdelta
    set th := max (0.05 : ℚ)
      (|sumVal (fun r => r.value) rows / (rows.length : ℚ)| * 0.02) with hth
    have hthpos : 0 < th := lt_of_lt_of_le (by norm_num) (le_max_left _ _)
    have htrend : (buildSummary rows pts).trend =
        if delta > th then Trend.Rising
        else if delta < -th then Trend.Falling
        else Trend.Stable := by
      rw [buildSummary, hne]
      simp only [if_pos hlen, sumVal, List.length_map, hdelta, hth]
      rfl
    rw [htrend]
    by_cases h1 : delta > th
    · rw [if_pos h1]
      have h2 : ¬ delta < -th := by
        intro hc
        linarith
      refine ⟨⟨fun _ => h1, fun _ => rfl⟩, ?_, ?_⟩
      · constructor
        · intro hc; exact Trend.noConfusion hc
        · intro hc; exact absurd hc h2
      · intro he
        exact absurd h1 (by rw [he]; exact lt_irrefl _)
    · rw [if_neg h1]
      by_cases h2 : delta < -th
      · rw [if_pos h2]
        refine ⟨?_, ⟨fun _ => h2, fun _ => rfl⟩, ?_⟩
        · constructor
          · intro hc; exact Trend.noConfusion hc
          · intro hc; exact absurd hc h1
        · intro he
          rw [he] at h2
          linarith
      · rw [if_neg h2]
        exact ⟨⟨fun hc => Trend.noConfusion hc, fun hc => absurd hc h1⟩,
          ⟨fun hc => Trend.noConfusion hc, fun hc => absurd hc h2⟩, fun _ => rfl⟩

/-- Witness for C4, realising the spec's boundary scenario: buckets with
overall values 10 and 10.2 over a batch of mean 10 sit exactly at the
threshold 0.2 and classify as Stable. -/
theorem buildSummary_trend_spec_witness :
    (buildSummary
      [⟨⟨2024, 1, 1, 8, 0⟩, "S1", "PM25", 10⟩]
      [⟨"2024-01-01", [("overall", 10)]⟩, ⟨"2024-01-02", [("overall", 10.2)]⟩]).trend =
      Trend.Stable := by
  have h := (buildSummary_trend_spec.2.2
    [⟨⟨2024, 1, 1, 8, 0⟩, "S1", "PM25", 10⟩]
    [⟨"2024-01-01", [("overall", 10)]⟩, ⟨"2024-01-02", [("overall", 10.2)]⟩]
    (by decide) (by decide)).2.2
  apply h
  simp only [List.getLast?, List.head?, Option.elim, TemporalPoint.overall, jget, sumVal,
    List.map_cons, List.map_nil, List.sum_cons, List.sum_nil, List.length_cons,
    List.length_nil]
  norm_num

/-! Temporal Aggregator: characterisation of the reserved `overall` series. -/

/-- The `overall` accumulator currently stored for bucket `b`. -/
def ovAcc (m : JsMap String (JsMap String Acc)) (b : String) : Acc :=
  accGet (jget ((jget m b).getD []) "overall")

theorem tempStep_bucket_ne (granularity : TimeGranularity) (splitByStation : Bool)
    (m : JsMap String (JsMap String Acc)) (r : AnalyticsDataRow) {b : String}
    (hb : getBucketKey r.observed_at granularity ≠ b) :
    jget (tempStep granularity splitByStation m r) b = jget m b := by
  simp only [tempStep]
  exact jget_jset_ne m _ (fun hh => hb hh.symm)

theorem tempStep_bucket_eq (granularity : TimeGranularity) (splitByStation : Bool)
    (m : JsMap String (JsMap String Acc)) (r : AnalyticsDataRow) {b : String}
    (hkey : seriesKeyOf splitByStation r ≠ "overall")
    (hb : getBucketKey r.observed_at granularity = b) :
    (jget (tempStep granularity splitByStation m r) b).isSome ∧
    ovAcc (tempStep granularity splitByStation m r) b = accAdd (ovAcc m b) r.value := by
  subst hb
  simp only [tempStep, ovAcc]
  rw [jget_jset_self]
  constructor
  · rfl
  · simp only [Option.getD_some]
    rw [jget_jset_self, jget_jset_ne _ _ (fun hh => hkey hh.symm)]
    rfl

theorem tempFold_ovAcc (granularity : TimeGranularity) (splitByStation : Bool) :
    ∀ (rows : List AnalyticsDataRow) (m : JsMap String (JsMap String Acc)) (b : String),
      (∀ r ∈ rows, seriesKeyOf splitByStation r ≠ "overall") →
      (rows.filter (fun r => getBucketKey r.observed_at granularity = b) = [] →
        jget (rows.foldl (tempStep granularity splitByStation) m) b = jget m b) ∧
      (rows.filter (fun r => getBucketKey r.observed_at granularity = b) ≠ [] →
        (jget (rows.foldl (tempStep granularity splitByStation) m) b).isSome ∧
        ovAcc (rows.foldl (tempStep granularity splitByStation) m) b =
          ⟨(ovAcc m b).sum + sumVal (fun r => r.value)
              (rows.filter (fun r => getBucketKey r.observed_at granularity = b)),
            (ovAcc m b).count +
              (rows.filter (fun r => getBucketKey r.observed_at granularity = b)).length⟩) := by
  intro rows
  induction rows with
  | nil =>
      intro m b _
      exact ⟨fun _ => rfl, fun hc => absurd rfl hc⟩
  | cons r rest ih =>
      intro m b hkey
      have hkr : seriesKeyOf splitByStation r ≠ "overall" :=
        hkey r (List.mem_cons_self _ _)
      have hkrest : ∀ x ∈ rest, seriesKeyOf splitByStation x ≠ "overall" :=
        fun x hx => hkey x (List.mem_cons_of_mem _ hx)
      by_cases hb : getBucketKey r.observed_at granularity = b
      · have hfc : (r :: rest).filter
            (fun r => getBucketKey r.observed_at granularity = b) =
            r :: rest.filter (fun r => getBucketKey r.observed_at granularity = b) := by
          simp [List.filter_cons, hb]
        have hstep := tempStep_bucket_eq granularity splitByStation m r hkr hb
        constructor
        · intro hfil
          rw [hfc] at hfil
          exact absurd hfil (by simp)
        · intro _
          rw [List.foldl_cons]
          by_cases hrest : rest.filter
              (fun r => getBucketKey r.observed_at granularity = b) = []
          · have hsame := (ih (tempStep granularity splitByStation m r) b hkrest).1 hrest
            have hov : ovAcc (rest.foldl (tempStep granularity splitByStation)
                (tempStep granularity splitByStation m r)) b =
                ovAcc (tempStep granularity splitByStation m r) b := by
              rw [ovAcc, ovAcc, hsame]
            rw [hov, hfc, hrest, hstep.2]
            refine ⟨by rw [hsame]; exact hstep.1, ?_⟩
            simp [accAdd, sumVal]
          · have hih := (ih (tempStep granularity splitByStation m r) b hkrest).2 hrest
            rw [hfc]
            refine ⟨hih.1, ?_⟩
            rw [hih.2, hstep.2]
            simp only [accAdd, sumVal, List.map_cons, List.sum_cons, List.length_cons]
            refine congrArg₂ Acc.mk ?_ ?_
            · ring
            · omega
      · have hfc : (r :: rest).filter
            (fun r => getBucketKey r.observed_at granularity = b) =
            rest.filter (fun r => getBucketKey r.observed_at granularity = b) := by
          simp [List.filter_cons, hb]
        have hstep := tempStep_bucket_ne granularity splitByStation m r hb
        have hov : ovAcc (tempStep granularity splitByStation m r) b = ovAcc m b := by
          rw [ovAcc, ovAcc, hstep]
        constructor
        · intro hfil
          rw [hfc] at hfil
          rw [List.foldl_cons,
            (ih (tempStep granularity splitByStation m r) b hkrest).1 hfil, hstep]
        · intro hfil
          rw [hfc] at hfil
          have hih := (ih (tempStep granularity splitByStation m r) b hkrest).2 hfil
          rw [List.foldl_cons, hfc]
          exact ⟨hih.1, by rw [hih.2, hov]⟩

theorem jkeys_tempStep (granularity : TimeGranularity) (splitByStation : Bool)
    (m : JsMap String (JsMap String Acc)) (r : AnalyticsDataRow) :
    jkeys (tempStep granularity splitByStation m r) =
      jsSetAdd (jkeys m) (getBucketKey r.observed_at granularity) := by
  simp only [tempStep]
  rw [jkeys_jset, jsSetAdd]

theorem jkeys_tempFold (granularity : TimeGranularity) (splitByStation : Bool) :
    ∀ (rows : List AnalyticsDataRow) (m : JsMap String (JsMap String Acc)),
      jkeys (rows.foldl (tempStep granularity splitByStation) m) =
        (rows.map (fun r => getBucketKey r.observed_at granularity)).foldl jsSetAdd
          (jkeys m) := by
  intro rows
  induction rows with
  | nil => intro m; rfl
  | cons r rest ih =>
      intro m
      rw [List.foldl_cons, ih, List.map_cons, List.foldl_cons, jkeys_tempStep]

theorem accGet_eq_some {o : Option Acc} {a : Acc} (h : accGet o = a) (hc : a.count ≠ 0) :
    o = some a := by
  cases o with
  | none =>
      rw [accGet, Option.getD_none] at h
      exact absurd (congrArg Acc.count h.symm) hc
  | some b =>
      rw [accGet, Option.getD_some] at h
      rw [h]

/-- Claim C2 (amended): provided no row's series key is the reserved string
`"overall"`, every output point's `overall` equals the arithmetic mean of the
rows whose bucket key equals that point's bucket, for every granularity and
either split mode. -/
theorem computeTemporalSeries_overall_mean (rows : List AnalyticsDataRow)
    (granularity : TimeGranularity) (splitByStation : Bool)
    (hkey : ∀ r ∈ rows, seriesKeyOf splitByStation r ≠ "overall") :
    ∀ p ∈ (computeTemporalSeries rows granularity splitByStation).points,
      rows.filter (fun r => getBucketKey r.observed_at granularity = p.bucket) ≠ [] ∧
      p.overall = sumVal (fun r => r.value)
          (rows.filter (fun r => getBucketKey r.observed_at granularity = p.bucket)) /
        ((rows.filter (fun r => getBucketKey r.observed_at granularity = p.bucket)).length :
          ℚ) := by
  intro p hp
  have hpts : (computeTemporalSeries rows granularity splitByStation).points =
      List.insertionSort (fun a b : TemporalPoint => a.bucket ≤ b.bucket)
        ((rows.foldl (tempStep granularity splitByStation) []).map (fun q =>
          TemporalPoint.mk q.1 (q.2.map (fun e => (e.1, e.2.sum / (e.2.count : ℚ)))))) := rfl
  rw [hpts] at hp
  have hpre := (List.perm_insertionSort _ _).mem_iff.mp hp
  obtain ⟨q, hq, hpq⟩ := List.mem_map.mp hpre
  have hkeys : jkeys (rows.foldl (tempStep granularity splitByStation) []) =
      firstSeen (rows.map (fun r => getBucketKey r.observed_at granularity)) := by
    rw [jkeys_tempFold, jkeys_nil, foldl_jsSetAdd_eq]
    simp
  have hnd : (jkeys (rows.foldl (tempStep granularity splitByStation) [])).Nodup := by
    rw [hkeys]
    exact firstSeen_nodup _
  have hget : jget (rows.foldl (tempStep granularity splitByStation) []) q.1 = some q.2 :=
    jget_eq_some_of_mem hnd (by simpa using hq)
  have hbmem : q.1 ∈ rows.map (fun r => getBucketKey r.observed_at granularity) := by
    have : q.1 ∈ jkeys (rows.foldl (tempStep granularity splitByStation) []) := by
      rw [jkeys]
      exact List.mem_map_of_mem Prod.fst hq
    rw [hkeys, mem_firstSeen] at this
    exact this
  obtain ⟨r0, hr0, hr0b⟩ := List.mem_map.mp hbmem
  have hfil : rows.filter
      (fun r => getBucketKey r.observed_at granularity = q.1) ≠ [] := by
    intro hc
    have : r0 ∈ rows.filter (fun r => getBucketKey r.observed_at granularity = q.1) :=
      List.mem_filter.mpr ⟨hr0, by simp [hr0b]⟩
    rw [hc] at this
    simp at this
  have hfold := (tempFold_ovAcc granularity splitByStation rows [] q.1 hkey).2 hfil
  have hov0 : ovAcc [] q.1 = ⟨0, 0⟩ := rfl
  have hovq : ovAcc (rows.foldl (tempStep granularity splitByStation) []) q.1 =
      accGet (jget q.2 "overall") := by
    rw [ovAcc, hget]
    rfl
  have hcount : (rows.filter
      (fun r => getBucketKey r.observed_at granularity = q.1)).length ≠ 0 := by
    intro hc
    exact hfil (List.length_eq_zero.mp hc)
  have hsome : jget q.2 "overall" = some
      ⟨sumVal (fun r => r.value)
          (rows.filter (fun r => getBucketKey r.observed_at granularity = q.1)),
        (rows.filter (fun r => getBucketKey r.observed_at granularity = q.1)).length⟩ := by
    apply accGet_eq_some
    · rw [← hovq, hfold.2, hov0]
      simp
    · simpa using hcount
  have hbucket : p.bucket = q.1 := by rw [← hpq]
  have hoverall : p.overall = sumVal (fun r => r.value)
      (rows.filter (fun r => getBucketKey r.observed_at granularity = q.1)) /
      ((rows.filter (fun r => getBucketKey r.observed_at granularity = q.1)).length : ℚ) := by
    rw [← hpq, TemporalPoint.overall]
    simp only []
    rw [jget_map (fun a : Acc => a.sum / (a.count : ℚ)) q.2 "overall", hsome]
    rfl
  rw [hbucket]
  exact ⟨hfil, hoverall⟩

/-- Two rows in one day bucket, one of which has station code literally
`"overall"` — the reserved-key collision input. -/
def overallCollisionRows : List AnalyticsDataRow :=
  [⟨⟨2024, 1, 1, 8, 0⟩, "A", "X", 10⟩, ⟨⟨2024, 1, 1, 9, 0⟩, "overall", "X", 100⟩]

/-- Counterexample to claim C2 as stated: with a station named `"overall"` and
`splitByStation = true`, the single day bucket's `overall` is `210/3 = 70`
(the colliding row is accumulated twice) while the arithmetic mean of the two
rows is `110/2 = 55`. -/
theorem computeTemporalSeries_overall_counterexample :
    ¬ ∀ p ∈ (computeTemporalSeries overallCollisionRows TimeGranularity.day true).points,
        p.overall = sumVal (fun r => r.value)
            (overallCollisionRows.filter
              (fun r => getBucketKey r.observed_at TimeGranularity.day = p.bucket)) /
          ((overallCollisionRows.filter
              (fun r => getBucketKey r.observed_at TimeGranularity.day = p.bucket)).length :
            ℚ) := by
  intro h
  have hb1 : getBucketKey (⟨2024, 1, 1, 8, 0⟩ : Timestamp) TimeGranularity.day =
      "2024-01-01" := by decide
  have hb2 : getBucketKey (⟨2024, 1, 1, 9, 0⟩ : Timestamp) TimeGranularity.day =
      "2024-01-01" := by decide
  have hne : ("A" : String) ≠ "overall" := by decide
  have hpts : (computeTemporalSeries overallCollisionRows TimeGranularity.day true).points =
      [⟨"2024-01-01", [("A", 10), ("overall", 70)]⟩] := by
    simp only [computeTemporalSeries, overallCollisionRows, List.foldl_cons, List.foldl_nil,
      tempStep, seriesKeyOf, hb1, hb2, jget, jset, accGet, accAdd]
    norm_num [List.insertionSort, List.orderedInsert, jget, jset, hne]
  have hp := h ⟨"2024-01-01", [("A", 10), ("overall", 70)]⟩
    (by rw [hpts]; exact List.mem_cons_self _ _)
  have hov : TemporalPoint.overall ⟨"2024-01-01", [("A", 10), ("overall", 70)]⟩ = 70 := by
    rw [TemporalPoint.overall, jget, if_neg hne, jget, if_pos rfl]
    rfl
  have hfl : overallCollisionRows.filter
      (fun r => getBucketKey r.observed_at TimeGranularity.day = "2024-01-01") =
      overallCollisionRows := by decide
  rw [hov, hfl] at hp
  rw [overallCollisionRows] at hp
  norm_num [sumVal] at hp

/-- Witness for the amended C2 at a single-row batch with an ordinary station
code. -/
theorem computeTemporalSeries_overall_mean_witness :
    (∀ r ∈ ([⟨⟨2024, 1, 1, 8, 0⟩, "S1", "PM25", 10⟩] : List AnalyticsDataRow),
      seriesKeyOf true r ≠ "overall") ∧
    (∀ p ∈ (computeTemporalSeries [⟨⟨2024, 1, 1, 8, 0⟩, "S1", "PM25", 10⟩]
        TimeGranularity.day true).points,
      ([⟨⟨2024, 1, 1, 8, 0⟩, "S1", "PM25", 10⟩] : List AnalyticsDataRow).filter
          (fun r => getBucketKey r.observed_at TimeGranularity.day = p.bucket) ≠ [] ∧
      p.overall = sumVal (fun r => r.value)
          (([⟨⟨2024, 1, 1, 8, 0⟩, "S1", "PM25", 10⟩] : List AnalyticsDataRow).filter
            (fun r => getBucketKey r.observed_at TimeGranularity.day = p.bucket)) /
        ((([⟨⟨2024, 1, 1, 8, 0⟩, "S1", "PM25", 10⟩] : List AnalyticsDataRow).filter
            (fun r => getBucketKey r.observed_at TimeGranularity.day = p.bucket)).length :
          ℚ)) :=
  ⟨by decide, computeTemporalSeries_overall_mean _ TimeGranularity.day true (by decide)⟩

/-! Histogram Builder lemmas. -/

theorem bucketIncr_length (b : List Nat) (i : Nat) :
    (bucketIncr b i).length = b.length := by
  simp [bucketIncr]

theorem bucketIncr_sum : ∀ (b : List Nat) (i : Nat), i < b.length →
    (bucketIncr b i).sum = b.sum + 1 := by
  intro b
  induction b with
  | nil => intro i h; simp at h
  | cons x t ih =>
      intro i h
      cases i with
      | zero => simp [bucketIncr, List.getD]; omega
      | succ i =>
          have hi : i < t.length := by simpa using h
          have : bucketIncr (x :: t) (i + 1) = x :: bucketIncr t i := by
            simp [bucketIncr, List.getD_cons_succ]
          rw [this, List.sum_cons, List.sum_cons, ih i hi]
          omega

theorem bucketIncr_getD : ∀ (b : List Nat) (i j : Nat), i < b.length →
    (bucketIncr b i).getD j 0 = if j = i then b.getD j 0 + 1 else b.getD j 0 := by
  intro b
  induction b with
  | nil => intro i j h; simp at h
  | cons x t ih =>
      intro i j h
      cases i with
      | zero =>
          cases j with
          | zero => simp [bucketIncr, List.getD]
          | succ j => simp [bucketIncr, List.getD]
      | succ i =>
          have hi : i < t.length := by simpa using h
          have hstep : bucketIncr (x :: t) (i + 1) = x :: bucketIncr t i := by
            simp [bucketIncr, List.getD_cons_succ]
          cases j with
          | zero => simp [hstep, List.getD]
          | succ j =>
              rw [hstep, List.getD_cons_succ, List.getD_cons_succ, ih i j hi]
              by_cases hji : j = i
              · simp [hji]
              · simp [hji]

theorem histFold_length (bins : Nat) (mn width : ℚ) :
    ∀ (values : List ℚ) (init : List Nat),
      (values.foldl (fun b v => bucketIncr b (histIndex bins mn width v)) init).length =
        init.length := by
  intro values
  induction values with
  | nil => intro init; rfl
  | cons v vs ih =>
      intro init
      rw [List.foldl_cons, ih, bucketIncr_length]

theorem histFold_sum (bins : Nat) (mn width : ℚ) :
    ∀ (values : List ℚ) (init : List Nat),
      (∀ v ∈ values, histIndex bins mn width v < init.length) →
      (values.foldl (fun b v => bucketIncr b (histIndex bins mn width v)) init).sum =
        init.sum + values.length := by
  intro values
  induction values with
  | nil => intro init _; simp
  | cons v vs ih =>
      intro init hlt
      rw [List.foldl_cons, ih _ (fun x hx => by
        rw [bucketIncr_length]
        exact hlt x (List.mem_cons_of_mem _ hx)),
        bucketIncr_sum init _ (hlt v (List.mem_cons_self _ _)), List.length_cons]
      omega

theorem histFold_getD (bins : Nat) (mn width : ℚ) :
    ∀ (values : List ℚ) (init : List Nat) (i : Nat),
      (∀ v ∈ values, histIndex bins mn width v < init.length) →
      (values.foldl (fun b v => bucketIncr b (histIndex bins mn width v)) init).getD i 0 =
        init.getD i 0 +
          (values.filter (fun v => histIndex bins mn width v = i)).length := by
  intro values
  induction values with
  | nil => intro init i _; simp
  | cons v vs ih =>
      intro init i hlt
      rw [List.foldl_cons, ih _ i (fun x hx => by
        rw [bucketIncr_length]
        exact hlt x (List.mem_cons_of_mem _ hx)),
        bucketIncr_getD init _ i (hlt v (List.mem_cons_self _ _))]
      by_cases hvi : histIndex bins mn width v = i
      · have hfc : (v :: vs).filter (fun v => histIndex bins mn width v = i) =
            v :: vs.filter (fun v => histIndex bins mn width v = i) := by
          simp [List.filter_cons, hvi]
        rw [hfc, if_pos hvi.symm, List.length_cons]
        omega
      · have hfc : (v :: vs).filter (fun v => histIndex bins mn width v = i) =
            vs.filter (fun v => histIndex bins mn width v = i) := by
          simp [List.filter_cons, hvi]
        rw [hfc, if_neg (fun hc => hvi hc.symm)]

theorem histIndex_lt (bins : Nat) (mn width v : ℚ) (hbins : 1 ≤ bins) :
    histIndex bins mn width v < bins := by
  rw [histIndex]
  have h1 : min ((bins : ℤ) - 1) ⌊(v - mn) / width⌋ ≤ (bins : ℤ) - 1 := min_le_left _ _
  have h2 := Int.toNat_le_toNat h1
  have h3 : ((bins : ℤ) - 1).toNat = bins - 1 := by omega
  omega

theorem replicate_getD : ∀ (n i : Nat), (List.replicate n (0 : Nat)).getD i 0 = 0 := by
  intro n
  induction n with
  | zero => intro i; simp
  | succ n ih =>
      intro i
      cases i with
      | zero => simp [List.replicate]
      | succ i =>
          rw [List.replicate, List.getD_cons_succ]
          exact ih i

/-- Claim C3: histogram bin counts always sum to the batch size; above the
degenerate-range tolerance there are exactly `N` bins and each value is
counted in the single clamped bin `histIndex`; within the tolerance there is
exactly one bin counting the whole batch; the empty batch maps to empty
output. -/
theorem computeHistogram_spec (rows : List AnalyticsDataRow) (bins : Nat)
    (hrows : rows ≠ []) (hbins : 1 ≤ bins) :
    ((computeHistogram rows bins).map (fun p => p.count)).sum = rows.length ∧
    (1 / 1000000000 <
        valuesMax (rows.map (fun r => r.value)) - valuesMin (rows.map (fun r => r.value)) →
      (computeHistogram rows bins).map (fun p => p.count) =
        (List.range bins).map (fun i =>
          ((rows.map (fun r => r.value)).filter (fun v =>
            histIndex bins (valuesMin (rows.map (fun r => r.value)))
              ((valuesMax (rows.map (fun r => r.value)) -
                  valuesMin (rows.map (fun r => r.value))) / (bins : ℚ)) v = i)).length)) ∧
    (valuesMax (rows.map (fun r => r.value)) - valuesMin (rows.map (fun r => r.value)) <
        1 / 1000000000 →
      computeHistogram rows bins =
        [⟨roundJs (valuesMin (rows.map (fun r => r.value))),
          roundJs (valuesMax (rows.map (fun r => r.value))), rows.length⟩]) ∧
    computeHistogram ([] : List AnalyticsDataRow) bins = [] := by
  have hne : rows.isEmpty = false := by
    cases rows with
    | nil => exact absurd rfl hrows
    | cons a l => rfl
  have hvne : rows.map (fun r => r.value) ≠ [] := by simpa using hrows
  have hmnmx : valuesMin (rows.map (fun r => r.value)) ≤
      valuesMax (rows.map (fun r => r.value)) :=
    le_valuesMax _ _ (valuesMin_mem hvne)
  have habs : |valuesMax (rows.map (fun r => r.value)) -
      valuesMin (rows.map (fun r => r.value))| =
      valuesMax (rows.map (fun r => r.value)) - valuesMin (rows.map (fun r => r.value)) :=
    abs_of_nonneg (sub_nonneg.mpr hmnmx)
  by_cases htol : valuesMax (rows.map (fun r => r.value)) -
      valuesMin (rows.map (fun r => r.value)) < 1 / 1000000000
  · have hch : computeHistogram rows bins =
        [⟨roundJs (valuesMin (rows.map (fun r => r.value))),
          roundJs (valuesMax (rows.map (fun r => r.value))), rows.length⟩] := by
      rw [computeHistogram, hne]
      simp only [Bool.false_eq_true, if_false]
      rw [if_pos (by rw [habs]; exact htol)]
    refine ⟨by rw [hch]; simp, ?_, fun _ => hch, rfl⟩
    intro hgt
    exact absurd htol (not_lt.mpr (le_of_lt hgt))
  · have hch : computeHistogram rows bins =
        ((rows.map (fun r => r.value)).foldl
          (fun b v => bucketIncr b (histIndex bins
            (valuesMin (rows.map (fun r => r.value)))
            ((valuesMax (rows.map (fun r => r.value)) -
                valuesMin (rows.map (fun r => r.value))) / (bins : ℚ)) v))
          (List.replicate bins 0)).enum.map (fun p =>
            ⟨roundJs (valuesMin (rows.map (fun r => r.value)) +
                (valuesMax (rows.map (fun r => r.value)) -
                  valuesMin (rows.map (fun r => r.value))) / (bins : ℚ) * (p.1 : ℚ)),
              roundJs (valuesMin (rows.map (fun r => r.value)) +
                (valuesMax (rows.map (fun r => r.value)) -
                  valuesMin (rows.map (fun r => r.value))) / (bins : ℚ) * (p.1 : ℚ) +
                (valuesMax (rows.map (fun r => r.value)) -
                  valuesMin (rows.map (fun r => r.value))) / (bins : ℚ)),
              p.2⟩) := by
      rw [computeHistogram, hne]
      simp only [Bool.false_eq_true, if_false]
      rw [if_neg (by rw [habs]; exact htol)]
    have hidx : ∀ v ∈ rows.map (fun r => r.value),
        histIndex bins (valuesMin (rows.map (fun r => r.value)))
          ((valuesMax (rows.map (fun r => r.value)) -
              valuesMin (rows.map (fun r => r.value))) / (bins : ℚ)) v <
          (List.replicate bins (0 : Nat)).length := by
      intro v _
      rw [List.length_replicate]
      exact histIndex_lt _ _ _ _ hbins
    have hcounts : ((computeHistogram rows bins).map (fun p => p.count)) =
        (rows.map (fun r => r.value)).foldl
          (fun b v => bucketIncr b (histIndex bins
            (valuesMin (rows.map (fun r => r.value)))
            ((valuesMax (rows.map (fun r => r.value)) -
                valuesMin (rows.map (fun r => r.value))) / (bins : ℚ)) v))
          (List.replicate bins 0) := by
      rw [hch, List.map_map]
      exact List.enum_map_snd _
    refine ⟨?_, ?_, ?_, rfl⟩
    · rw [hcounts, histFold_sum _ _ _ _ _ hidx]
      simp
    · intro _
      rw [hcounts]
      apply List.ext_getElem
      · rw [histFold_length, List.length_replicate, List.length_map, List.length_range]
      · intro i h1 h2
        have hib : i < bins := by
          rw [histFold_length, List.length_replicate] at h1
          exact h1
        have hgetD := histFold_getD bins
          (valuesMin (rows.map (fun r => r.value)))
          ((valuesMax (rows.map (fun r => r.value)) -
              valuesMin (rows.map (fun r => r.value))) / (bins : ℚ))
          (rows.map (fun r => r.value)) (List.replicate bins 0) i hidx
        rw [replicate_getD, Nat.zero_add] at hgetD
        rw [← List.getD_eq_getElem _ 0 h1, hgetD]
        rw [List.getElem_map, List.getElem_range]
    · intro hlt
      exact absurd hlt htol

/-- Witness for C3 on a two-valued batch with two bins. -/
theorem computeHistogram_spec_witness :
    (([⟨⟨2024, 1, 1, 8, 0⟩, "S1", "PM25", 0⟩,
       ⟨⟨2024, 1, 1, 9, 0⟩, "S1", "PM25", 1⟩] : List AnalyticsDataRow) ≠ []) ∧
    1 ≤ 2 ∧
    ((computeHistogram
        [⟨⟨2024, 1, 1, 8, 0⟩, "S1", "PM25", 0⟩,
         ⟨⟨2024, 1, 1, 9, 0⟩, "S1", "PM25", 1⟩] 2).map (fun p => p.count)).sum = 2 :=
  ⟨by decide, by decide,
   (computeHistogram_spec
     [⟨⟨2024, 1, 1, 8, 0⟩, "S1", "PM25", 0⟩,
      ⟨⟨2024, 1, 1, 9, 0⟩, "S1", "PM25", 1⟩] 2 (by decide) (by decide)).1⟩

/-! Heatmap Builder lemmas. -/

theorem foldl_jsSetAdd_map {α K : Type} [DecidableEq K] (f : α → K) :
    ∀ (rows : List α) (acc : List K),
      rows.foldl (fun s r => jsSetAdd s (f r)) acc = (rows.map f).foldl jsSetAdd acc := by
  intro rows
  induction rows with
  | nil => intro acc; rfl
  | cons r rest ih =>
      intro acc
      rw [List.foldl_cons, List.map_cons, List.foldl_cons, ih]

theorem heatInner_lookup (grouped : JsMap (String × Nat) Acc) (day : String) :
    ∀ (hours : List Nat) (vm : JsMap (String × Nat) ℚ) (d : String) (h : Nat),
      jget (hours.foldl (fun vm hour =>
          match jget grouped (day, hour) with
          | some item => jset vm (day, hour) (item.sum / (item.count : ℚ))
          | none => vm) vm) (d, h) =
        if day = d ∧ h ∈ hours ∧ (jget grouped (d, h)).isSome then
          (jget grouped (d, h)).map (fun a => a.sum / (a.count : ℚ))
        else jget vm (d, h) := by
  intro hours
  induction hours with
  | nil =>
      intro vm d h
      rw [if_neg (by simp)]
      rfl
  | cons h0 hs ih =>
      intro vm d h
      rw [List.foldl_cons, ih]
      by_cases hc : day = d ∧ h ∈ hs ∧ (jget grouped (d, h)).isSome
      · rw [if_pos hc, if_pos ⟨hc.1, List.mem_cons_of_mem _ hc.2.1, hc.2.2⟩]
      · rw [if_neg hc]
        by_cases hc2 : day = d ∧ h = h0 ∧ (jget grouped (d, h)).isSome
        · obtain ⟨hd, hh, hsome⟩ := hc2
          subst hd
          subst hh
          obtain ⟨item, hitem⟩ := Option.isSome_iff_exists.mp hsome
          rw [if_pos ⟨rfl, List.mem_cons_self _ _, hsome⟩]
          simp only [hitem]
          rw [jget_jset_self]
          rfl
        · have hcond : ¬ (day = d ∧ h ∈ h0 :: hs ∧ (jget grouped (d, h)).isSome) := by
            intro hcc
            rcases List.mem_cons.mp hcc.2.1 with hh | hh
            · exact hc2 ⟨hcc.1, hh, hcc.2.2⟩
            · exact hc ⟨hcc.1, hh, hcc.2.2⟩
          rw [if_neg hcond]
          cases hg : jget grouped (day, h0) with
          | none => rfl
          | some item =>
              have hkeyne : (d, h) ≠ (day, h0) := by
                intro hcc
                injection hcc with hd hh
                subst hd
                subst hh
                exact hc2 ⟨rfl, rfl, by rw [hg]; rfl⟩
              exact jget_jset_ne vm _ hkeyne

theorem heatOuter_lookup (grouped : JsMap (String × Nat) Acc) (hours : List Nat) :
    ∀ (days : List String) (vm : JsMap (String × Nat) ℚ) (d : String) (h : Nat),
      jget (days.foldl (fun vm day =>
          hours.foldl (fun vm hour =>
            match jget grouped (day, hour) with
            | some item => jset vm (day, hour) (item.sum / (item.count : ℚ))
            | none => vm) vm) vm) (d, h) =
        if d ∈ days ∧ h ∈ hours ∧ (jget grouped (d, h)).isSome then
          (jget grouped (d, h)).map (fun a => a.sum / (a.count : ℚ))
        else jget vm (d, h) := by
  intro days
  induction days with
  | nil =>
      intro vm d h
      rw [if_neg (by simp)]
      rfl
  | cons day0 ds ih =>
      intro vm d h
      rw [List.foldl_cons, ih]
      by_cases hc : d ∈ ds ∧ h ∈ hours ∧ (jget grouped (d, h)).isSome
      · rw [if_pos hc, if_pos ⟨List.mem_cons_of_mem _ hc.1, hc.2⟩]
      · rw [if_neg hc, heatInner_lookup]
        by_cases hc2 : day0 = d ∧ h ∈ hours ∧ (jget grouped (d, h)).isSome
        · rw [if_pos hc2, if_pos ⟨hc2.1 ▸ List.mem_cons_self _ _, hc2.2⟩]
        · have hcond : ¬ (d ∈ day0 :: ds ∧ h ∈ hours ∧ (jget grouped (d, h)).isSome) := by
            intro hcc
            rcases List.mem_cons.mp hcc.1 with hh | hh
            · exact hc2 ⟨hh.symm, hcc.2⟩
            · exact hc ⟨hh, hcc.2⟩
          rw [if_neg hc2, if_neg hcond]

/-- Claim C5: the Heatmap Builder retains the last 14 of the ascending-sorted
distinct day strings, exposes hours 0..23, and its sparse cell map holds the
arithmetic mean exactly for retained-day cells with at least one observation,
with all other cells (including all cells of non-retained days) absent. -/
theorem computeHeatmap_spec (rows : List AnalyticsDataRow)
    (hwf : ∀ r ∈ rows, r.observed_at.hour < 24) :
    (∃ D : List String, D.Pairwise (· < ·) ∧
      (∀ d, d ∈ D ↔ d ∈ rows.map (fun r => formatDay r.observed_at)) ∧
      (computeHeatmap rows).days = sliceLast 14 D) ∧
    (computeHeatmap rows).days.Pairwise (· < ·) ∧
    (computeHeatmap rows).days.length ≤ 14 ∧
    (computeHeatmap rows).hours = List.range 24 ∧
    (∀ d h, jget (computeHeatmap rows).values (d, h) =
      if d ∈ (computeHeatmap rows).days ∧
          rows.filter (fun r => dayHourKey r = (d, h)) ≠ [] then
        some (sumVal (fun r => r.value) (rows.filter (fun r => dayHourKey r = (d, h))) /
          ((rows.filter (fun r => dayHourKey r = (d, h))).length : ℚ))
      else none) := by
  have hdayset : rows.foldl (fun s r => jsSetAdd s (formatDay r.observed_at)) [] =
      firstSeen (rows.map (fun r => formatDay r.observed_at)) := by
    rw [foldl_jsSetAdd_map (fun r => formatDay r.observed_at) rows [], foldl_jsSetAdd_eq]
    simp
  have hDsorted : (sortedDistinctDays rows).Pairwise (· < ·) := by
    have hs : (sortedDistinctDays rows).Pairwise (· ≤ ·) := List.sorted_insertionSort _ _
    have hnd : (sortedDistinctDays rows).Nodup := by
      rw [sortedDistinctDays, (List.perm_insertionSort _ _).nodup_iff, hdayset]
      exact firstSeen_nodup _
    exact (hs.and hnd).imp (fun hab => lt_of_le_of_ne hab.1 hab.2)
  have hDmem : ∀ d, d ∈ sortedDistinctDays rows ↔
      d ∈ rows.map (fun r => formatDay r.observed_at) := by
    intro d
    rw [sortedDistinctDays, (List.perm_insertionSort _ _).mem_iff, hdayset, mem_firstSeen]
  have hch : computeHeatmap rows =
      ⟨sliceLast 14 (sortedDistinctDays rows),
        List.range 24,
        (sliceLast 14 (sortedDistinctDays rows)).foldl
          (fun vm day => (List.range 24).foldl (fun vm hour =>
            match jget (groupBy dayHourKey (fun r => r.value) rows) (day, hour) with
            | some item => jset vm (day, hour) (item.sum / (item.count : ℚ))
            | none => vm) vm) []⟩ := rfl
  have hvd : (computeHeatmap rows).days = sliceLast 14 (sortedDistinctDays rows) :=
    congrArg HeatMatrix.days hch
  have hvv : (computeHeatmap rows).values =
      (sliceLast 14 (sortedDistinctDays rows)).foldl
        (fun vm day => (List.range 24).foldl (fun vm hour =>
          match jget (groupBy dayHourKey (fun r => r.value) rows) (day, hour) with
          | some item => jset vm (day, hour) (item.sum / (item.count : ℚ))
          | none => vm) vm) [] :=
    congrArg HeatMatrix.values hch
  have hhours : (computeHeatmap rows).hours = List.range 24 :=
    congrArg HeatMatrix.hours hch
  refine ⟨⟨sortedDistinctDays rows, hDsorted, hDmem, hvd⟩, ?_, ?_, hhours, ?_⟩
  · rw [hvd, sliceLast]
    exact hDsorted.sublist (List.drop_sublist _ _)
  · rw [hvd, sliceLast, List.length_drop]
    omega
  · intro d h
    rw [hvv, heatOuter_lookup (groupBy dayHourKey (fun r => r.value) rows)
      (List.range 24) _ [] d h, jget_nil, hvd]
    by_cases hfil : rows.filter (fun r => dayHourKey r = (d, h)) = []
    · have hnone : jget (groupBy dayHourKey (fun r => r.value) rows) (d, h) = none :=
        groupBy_lookup_nil _ _ _ _ hfil
      rw [if_neg (by rw [hnone]; intro hc; simp at hc),
        if_neg (fun hc => hc.2 hfil)]
    · have hsome := groupBy_lookup_ne_nil dayHourKey (fun r => r.value) rows (d, h) hfil
      obtain ⟨r0, hr0⟩ := List.exists_mem_of_ne_nil _ hfil
      have hr0f := List.mem_filter.mp hr0
      have hr0k : dayHourKey r0 = (d, h) := by simpa using hr0f.2
      have hh24 : h ∈ List.range 24 := by
        rw [List.mem_range]
        have := hwf r0 hr0f.1
        have hhr : r0.observed_at.hour = h := congrArg Prod.snd hr0k
        omega
      by_cases hd : d ∈ sliceLast 14 (sortedDistinctDays rows)
      · rw [if_pos ⟨hd, hh24, by rw [hsome]; rfl⟩, if_pos ⟨hd, hfil⟩, hsome]
        rfl
      · rw [if_neg (fun hc => hd hc.1), if_neg (fun hc => hd hc.1)]

/-- Witness for C5 on a single-day, single-hour batch. -/
theorem computeHeatmap_spec_witness :
    (∀ r ∈ ([⟨⟨2024, 1, 1, 8, 0⟩, "S1", "PM25", 10⟩,
       ⟨⟨2024, 1, 1, 8, 30⟩, "S1", "PM25", 20⟩] : List AnalyticsDataRow),
      r.observed_at.hour < 24) ∧
    (computeHeatmap [⟨⟨2024, 1, 1, 8, 0⟩, "S1", "PM25", 10⟩,
      ⟨⟨2024, 1, 1, 8, 30⟩, "S1", "PM25", 20⟩]).days.length ≤ 14 :=
  ⟨by decide,
   (computeHeatmap_spec [⟨⟨2024, 1, 1, 8, 0⟩, "S1", "PM25", 10⟩,
      ⟨⟨2024, 1, 1, 8, 30⟩, "S1", "PM25", 20⟩] (by decide)).2.2.1⟩

/-! Query Orchestrator lemmas and claims. -/

theorem stepEvent_requestId_le (st : OrchestratorState) (e : OrchestratorEvent) :
    st.requestId ≤ (stepEvent st e).requestId := by
  cases e with
  | mainIssue => exact Nat.le_succ _
  | mainSuccess t r =>
      rw [stepEvent, applyMainSuccess]
      split <;> exact Nat.le_refl _
  | mainFailure t m =>
      rw [stepEvent, applyMainFailure]
      split <;> exact Nat.le_refl _
  | liveIssue => exact Nat.le_refl _
  | liveSuccess t s =>
      rw [stepEvent, applyLiveSuccess]
      split <;> exact Nat.le_refl _
  | liveFailure t =>
      rw [stepEvent, applyLiveFailure]
      split <;> exact Nat.le_refl _

theorem runEvents_requestId_le :
    ∀ (es : List OrchestratorEvent) (st : OrchestratorState),
      st.requestId ≤ (runEvents st es).requestId := by
  intro es
  induction es with
  | nil => intro st; exact Nat.le_refl _
  | cons e es ih =>
      intro st
      exact Nat.le_trans (stepEvent_requestId_le st e) (ih (stepEvent st e))

theorem mainTokens_gt :
    ∀ (es : List OrchestratorEvent) (st : OrchestratorState) (t : Nat),
      t ∈ mainTokens st es → st.requestId < t := by
  intro es
  induction es with
  | nil => intro st t h; simp [mainTokens] at h
  | cons e es ih =>
      intro st t h
      rw [mainTokens] at h
      rcases List.mem_append.mp h with h | h
      · cases e <;> simp [issuedToken, issueMainRequest] at h
        omega
      · exact Nat.lt_of_le_of_lt (stepEvent_requestId_le st e) (ih (stepEvent st e) t h)

theorem mainTokens_le_run :
    ∀ (es : List OrchestratorEvent) (st : OrchestratorState) (t : Nat),
      t ∈ mainTokens st es → t ≤ (runEvents st es).requestId := by
  intro es
  induction es with
  | nil => intro st t h; simp [mainTokens] at h
  | cons e es ih =>
      intro st t h
      rw [mainTokens] at h
      rw [runEvents, List.foldl_cons]
      rcases List.mem_append.mp h with h | h
      · cases e <;> simp [issuedToken, issueMainRequest] at h
        have hst : (stepEvent st OrchestratorEvent.mainIssue).requestId =
            st.requestId + 1 := rfl
        have := runEvents_requestId_le es (stepEvent st OrchestratorEvent.mainIssue)
        rw [hst] at this
        rw [h]
        exact this
      · exact ih (stepEvent st e) t h

theorem mainTokens_pairwise :
    ∀ (es : List OrchestratorEvent) (st : OrchestratorState),
      (mainTokens st es).Pairwise (· < ·) := by
  intro es
  induction es with
  | nil => intro st; simp [mainTokens]
  | cons e es ih =>
      intro st
      rw [mainTokens]
      cases e with
      | mainIssue =>
          rw [issuedToken, List.singleton_append, List.pairwise_cons]
          refine ⟨?_, ih _⟩
          intro t ht
          have := mainTokens_gt es (stepEvent st .mainIssue) t ht
          exact this
      | mainSuccess t r => rw [issuedToken, List.nil_append]; exact ih _
      | mainFailure t m => rw [issuedToken, List.nil_append]; exact ih _
      | liveIssue => rw [issuedToken, List.nil_append]; exact ih _
      | liveSuccess t s => rw [issuedToken, List.nil_append]; exact ih _
      | liveFailure t => rw [issuedToken, List.nil_append]; exact ih _

/-- Claim C1: main-channel tokens strictly increase along every trace and
never exceed the counter; a response mutates the visible state exactly when
its token equals the current counter (the maximum issued token), and in the
1,2,3-issued / 1,3,2-arrival scenario only the response for token 3 changes
the displayed rows. -/
theorem mainChannel_token_protocol :
    (∀ (st : OrchestratorState) (es : List OrchestratorEvent),
      (mainTokens st es).Pairwise (· < ·) ∧
      ∀ t ∈ mainTokens st es, st.requestId < t ∧ t ≤ (runEvents st es).requestId) ∧
    (∀ (st : OrchestratorState) (t : Nat) (r : List AnalyticsDataRow),
      t ≠ st.requestId → applyMainSuccess st t r = st) ∧
    (∀ (st : OrchestratorState) (t : Nat) (msg : String),
      t ≠ st.requestId → applyMainFailure st t msg = st) ∧
    (∀ (st : OrchestratorState) (t : Nat) (r : List AnalyticsDataRow),
      t = st.requestId →
      applyMainSuccess st t r =
        { st with rows := r,
                  error := if r.isEmpty then some noDataMessage else st.error,
                  loading := false }) ∧
    (∀ r1 r2 r3 : List AnalyticsDataRow,
      mainTokens initialState
        ([.mainIssue, .mainIssue, .mainIssue, .mainSuccess 1 r1, .mainSuccess 3 r3,
          .mainSuccess 2 r2] : List OrchestratorEvent) = [1, 2, 3] ∧
      runEvents initialState
          ([.mainIssue, .mainIssue, .mainIssue, .mainSuccess 1 r1] :
            List OrchestratorEvent) =
        runEvents initialState
          ([.mainIssue, .mainIssue, .mainIssue] : List OrchestratorEvent) ∧
      runEvents initialState
          ([.mainIssue, .mainIssue, .mainIssue, .mainSuccess 1 r1, .mainSuccess 3 r3,
            .mainSuccess 2 r2] : List OrchestratorEvent) =
        runEvents initialState
          ([.mainIssue, .mainIssue, .mainIssue, .mainSuccess 1 r1, .mainSuccess 3 r3] :
            List OrchestratorEvent) ∧
      (runEvents initialState
          ([.mainIssue, .mainIssue, .mainIssue, .mainSuccess 1 r1, .mainSuccess 3 r3,
            .mainSuccess 2 r2] : List OrchestratorEvent)).rows = r3) := by
  refine ⟨?_, ?_, ?_, ?_, ?_⟩
  · intro st es
    exact ⟨mainTokens_pairwise es st,
      fun t ht => ⟨mainTokens_gt es st t ht, mainTokens_le_run es st t ht⟩⟩
  · intro st t r h
    rw [applyMainSuccess, if_neg h]
  · intro st t msg h
    rw [applyMainFailure, if_neg h]
  · intro st t r h
    rw [applyMainSuccess, if_pos h]
  · intro r1 r2 r3
    exact ⟨rfl, rfl, rfl, rfl⟩

/-- Witness for C1: a stale success (token 5 against counter 0) is a no-op. -/
theorem mainChannel_token_protocol_witness :
    (5 ≠ initialState.requestId) ∧
    applyMainSuccess initialState 5 [] = initialState :=
  ⟨by decide, mainChannel_token_protocol.2.1 initialState 5 [] (by decide)⟩

/-- Claim C7: a failed request with the current token clears the displayed
rows, stores the error text and stops loading; a stale failure changes
nothing at all. -/
theorem applyMainFailure_spec :
    (∀ (st : OrchestratorState) (t : Nat) (msg : String),
      t = st.requestId →
      applyMainFailure st t msg =
        { st with rows := [], error := some msg, loading := false }) ∧
    (∀ (st : OrchestratorState) (t : Nat) (msg : String),
      t ≠ st.requestId → applyMainFailure st t msg = st) := by
  constructor
  · intro st t msg h
    rw [applyMainFailure, if_pos h]
  · intro st t msg h
    rw [applyMainFailure, if_neg h]

/-- Witness for C7 at the initial state (current token) and at a stale token. -/
theorem applyMainFailure_spec_witness :
    ((0 : Nat) = initialState.requestId ∧
      applyMainFailure initialState 0 "network error" =
        { initialState with rows := [], error := some "network error",
                            loading := false }) ∧
    ((7 : Nat) ≠ initialState.requestId ∧
      applyMainFailure initialState 7 "network error" = initialState) :=
  ⟨⟨rfl, applyMainFailure_spec.1 initialState 0 "network error" rfl⟩,
   ⟨by decide, applyMainFailure_spec.2 initialState 7 "network error" (by decide)⟩⟩

/-- Claim C9: the two channels are independent: main-channel operations leave
every live-channel cell unchanged and vice versa, and each channel's token
decisions ignore the other channel's counter. -/
theorem channel_independence :
    ∀ (st : OrchestratorState) (t : Nat) (r : List AnalyticsDataRow) (msg : String)
      (snap : StationLiveSnapshotResponse) (x : Nat),
      ((issueMainRequest st).2.liveRequestId = st.liveRequestId ∧
        (issueMainRequest st).2.liveSnapshot = st.liveSnapshot ∧
        (issueMainRequest st).2.liveLoading = st.liveLoading) ∧
      ((applyMainSuccess st t r).liveRequestId = st.liveRequestId ∧
        (applyMainSuccess st t r).liveSnapshot = st.liveSnapshot ∧
        (applyMainSuccess st t r).liveLoading = st.liveLoading) ∧
      ((applyMainFailure st t msg).liveRequestId = st.liveRequestId ∧
        (applyMainFailure st t msg).liveSnapshot = st.liveSnapshot ∧
        (applyMainFailure st t msg).liveLoading = st.liveLoading) ∧
      ((issueLiveRequest st).2.requestId = st.requestId ∧
        (issueLiveRequest st).2.rows = st.rows ∧
        (issueLiveRequest st).2.error = st.error ∧
        (issueLiveRequest st).2.loading = st.loading) ∧
      ((applyLiveSuccess st t snap).requestId = st.requestId ∧
        (applyLiveSuccess st t snap).rows = st.rows ∧
        (applyLiveSuccess st t snap).error = st.error ∧
        (applyLiveSuccess st t snap).loading = st.loading) ∧
      ((applyLiveFailure st t).requestId = st.requestId ∧
        (applyLiveFailure st t).rows = st.rows ∧
        (applyLiveFailure st t).error = st.error ∧
        (applyLiveFailure st t).loading = st.loading) ∧
      ((issueMainRequest { st with liveRequestId := x }).1 = (issueMainRequest st).1) ∧
      ((issueLiveRequest { st with requestId := x }).1 = (issueLiveRequest st).1) ∧
      (applyLiveSuccess { st with requestId := x } t snap =
        { applyLiveSuccess st t snap with requestId := x }) ∧
      (applyMainSuccess { st with liveRequestId := x } t r =
        { applyMainSuccess st t r with liveRequestId := x }) := by
  intro st t r msg snap x
  refine ⟨⟨rfl, rfl, rfl⟩, ?_, ?_, ⟨rfl, rfl, rfl, rfl⟩, ?_, ?_, rfl, rfl, ?_, ?_⟩
  · rw [applyMainSuccess]
    split <;> exact ⟨rfl, rfl, rfl⟩
  · rw [applyMainFailure]
    split <;> exact ⟨rfl, rfl, rfl⟩
  · rw [applyLiveSuccess]
    split <;> exact ⟨rfl, rfl, rfl, rfl⟩
  · rw [applyLiveFailure]
    split <;> exact ⟨rfl, rfl, rfl, rfl⟩
  · by_cases h : t = st.liveRequestId
    · rw [applyLiveSuccess, applyLiveSuccess, if_pos h, if_pos h]
    · rw [applyLiveSuccess, applyLiveSuccess, if_neg h, if_neg h]
  · by_cases h : t = st.requestId
    · rw [applyMainSuccess, applyMainSuccess, if_pos h, if_pos h]
    · rw [applyMainSuccess, applyMainSuccess, if_neg h, if_neg h]

/-- Claim C8: the dispatched payload always carries an ordered (or swapped)
date range with empty dates as `undefined`, preserving the unordered pair,
and a limit clamped into `[100, max 100 row_count]`. -/
theorem buildQueryPayload_spec :
    ∀ (sourceId : Int) (stationCodes : List String) (fromDate toDate : String)
      (requestedLimit : Int) (rc : Int),
      (fromDate ≠ "" → toDate ≠ "" → ¬ fromDate ≤ toDate →
        (buildQueryPayload sourceId stationCodes fromDate toDate requestedLimit
          (some rc)).date_from = some toDate ∧
        (buildQueryPayload sourceId stationCodes fromDate toDate requestedLimit
          (some rc)).date_to = some fromDate) ∧
      (∀ a b,
        (buildQueryPayload sourceId stationCodes fromDate toDate requestedLimit
          (some rc)).date_from = some a →
        (buildQueryPayload sourceId stationCodes fromDate toDate requestedLimit
          (some rc)).date_to = some b → a ≤ b) ∧
      (((buildQueryPayload sourceId stationCodes fromDate toDate requestedLimit
            (some rc)).date_from = (if fromDate = "" then none else some fromDate) ∧
        (buildQueryPayload sourceId stationCodes fromDate toDate requestedLimit
            (some rc)).date_to = (if toDate = "" then none else some toDate)) ∨
       ((buildQueryPayload sourceId stationCodes fromDate toDate requestedLimit
            (some rc)).date_from = (if toDate = "" then none else some toDate) ∧
        (buildQueryPayload sourceId stationCodes fromDate toDate requestedLimit
            (some rc)).date_to = (if fromDate = "" then none else some fromDate))) ∧
      (fromDate = "" →
        (buildQueryPayload sourceId stationCodes fromDate toDate requestedLimit
          (some rc)).date_from = none) ∧
      (toDate = "" →
        (buildQueryPayload sourceId stationCodes fromDate toDate requestedLimit
          (some rc)).date_to = none) ∧
      (100 ≤ (buildQueryPayload sourceId stationCodes fromDate toDate requestedLimit
          (some rc)).limit ∧
        (buildQueryPayload sourceId stationCodes fromDate toDate requestedLimit
          (some rc)).limit ≤ max 100 rc) := by
  intro sourceId stationCodes fromDate toDate requestedLimit rc
  have hdf : (buildQueryPayload sourceId stationCodes fromDate toDate requestedLimit
      (some rc)).date_from = (normalizeDateRange fromDate toDate).1 := rfl
  have hdt : (buildQueryPayload sourceId stationCodes fromDate toDate requestedLimit
      (some rc)).date_to = (normalizeDateRange fromDate toDate).2 := rfl
  have hlim : (buildQueryPayload sourceId stationCodes fromDate toDate requestedLimit
      (some rc)).limit = max 100 (min requestedLimit (max 100 rc)) := rfl
  refine ⟨?_, ?_, ?_, ?_, ?_, ?_⟩
  · intro hf ht hlt
    have hne2 : ¬ (fromDate = "" ∨ toDate = "") := by
      intro hc
      rcases hc with hc | hc
      · exact hf hc
      · exact ht hc
    rw [hdf, hdt, normalizeDateRange, if_neg hne2, if_neg hlt]
    exact ⟨rfl, rfl⟩
  · intro a b ha hb
    rw [hdf] at ha
    rw [hdt] at hb
    rw [normalizeDateRange] at ha hb
    by_cases hempty : fromDate = "" ∨ toDate = ""
    · rw [if_pos hempty] at ha hb
      rcases hempty with hc | hc
      · rw [if_pos hc] at ha
        exact absurd ha (by simp)
      · rw [if_pos hc] at hb
        exact absurd hb (by simp)
    · rw [if_neg hempty] at ha hb
      by_cases hle : fromDate ≤ toDate
      · rw [if_pos hle] at ha hb
        injection ha with ha
        injection hb with hb
        subst ha
        subst hb
        exact hle
      · rw [if_neg hle] at ha hb
        injection ha with ha
        injection hb with hb
        subst ha
        subst hb
        exact le_of_not_le hle
  · rw [hdf, hdt, normalizeDateRange]
    by_cases hempty : fromDate = "" ∨ toDate = ""
    · rw [if_pos hempty]
      exact Or.inl ⟨rfl, rfl⟩
    · have hf : ¬ fromDate = "" := fun hc => hempty (Or.inl hc)
      have ht : ¬ toDate = "" := fun hc => hempty (Or.inr hc)
      rw [if_neg hempty]
      by_cases hle : fromDate ≤ toDate
      · rw [if_pos hle]
        exact Or.inl ⟨by rw [if_neg hf], by rw [if_neg ht]⟩
      · rw [if_neg hle]
        exact Or.inr ⟨by rw [if_neg ht], by rw [if_neg hf]⟩
  · intro hf
    rw [hdf, normalizeDateRange, if_pos (Or.inl hf), if_pos hf]
  · intro ht
    rw [hdt, normalizeDateRange, if_pos (Or.inr ht), if_pos ht]
  · rw [hlim]
    exact ⟨le_max_left _ _, max_le (le_max_left _ _) (min_le_right _ _)⟩

/-- Witness for C8 with an empty `from` date and a source row count of 300. -/
theorem buildQueryPayload_spec_witness :
    (buildQueryPayload 7 [] "" "2024-01-01" 5000 (some 300)).date_from = none ∧
    (100 ≤ (buildQueryPayload 7 [] "" "2024-01-01" 5000 (some 300)).limit ∧
      (buildQueryPayload 7 [] "" "2024-01-01" 5000 (some 300)).limit ≤ max 100 300) :=
  ⟨(buildQueryPayload_spec 7 [] "" "2024-01-01" 5000 300).2.2.2.1 rfl,
   (buildQueryPayload_spec 7 [] "" "2024-01-01" 5000 300).2.2.2.2.2⟩

end Atmos
